import Mathlib

/-!
Verification of `src/threaded_priority_queue.h` (kachhy/ThreadedPriorityQueue).

The header defines a mutex-protected binary heap `ThreadedPriorityQueue<T, Comp>`
built on a hand-rolled growable array `HeapVec`.  This file is a shallow
embedding of its value-level behaviour:

* `HeapVec` keeps the live elements `[0, m_size)` as a `List` together with the
  `m_capacity` high-water mark; the uninitialized tail `[m_size, m_capacity)` of
  the C++ buffer carries no values and is not represented.
* the mutex and the condition variable have no value-level content; a blocking
  operation is embedded as the function the thread executes after its wake
  predicate became true, and the `notify_one` call in `pop` (used for
  `wait_empty_push` handoff) is reported as a `Bool` in the result.
* `pop()`/`top()` throw `std::runtime_error` on an empty queue (the spec's
  `EmptyQueueError`); this is embedded with `Except QueueError`, and both return
  the resulting queue state so that state preservation on failure is a theorem.
* the two percolate loops are embedded as fuel-indexed structural recursions
  (`fuel` bounds the number of loop iterations; `percolate_up` strictly
  decreases its index, `percolate_down` strictly increases it below `n`, so a
  fuel of the initial index resp. of `n` is never exhausted).  Fuel-insensitivity
  is proved below (`percolate_up_go_fuel`, `percolate_down_go_fuel`).
-/

set_option maxHeartbeats 1000000

/-- Model of `MinHeapComparitor` (header lines 12-17): `operator()(a, b)` is
`a < b`.  The C++ comparator is a template over any `T` with `<`; it is embedded
over a linearly ordered carrier. -/
def MinHeapComparitor {α : Type} [LinearOrder α] (a b : α) : Bool :=
  decide (a < b)

/-- Model of `MaxHeapComparitor` (header lines 19-24): `operator()(a, b)` is
`a > b`. -/
def MaxHeapComparitor {α : Type} [LinearOrder α] (a b : α) : Bool :=
  decide (a > b)

/-- Read of `m_arr[i]`.  All reads performed by the queue code are in bounds
(the heap loops guard their indices), so the `default` fallback is never hit
from the operations below; it only keeps the embedding total. -/
def nthD {α : Type} [Inhabited α] (l : List α) (i : Nat) : α :=
  l.getD i default

/-- Model of `std::swap(m_heapVector[i], m_heapVector[j])`. -/
def listSwap {α : Type} [Inhabited α] (l : List α) (i j : Nat) : List α :=
  (l.set i (nthD l j)).set j (nthD l i)

/-- Model of the nested `HeapVec` struct (header lines 28-101): a raw buffer
`m_arr` with `m_size` live slots and `m_capacity` allocated slots.  Only the
live prefix holds values; `m_size` is the length of `m_arr` here. -/
structure HeapVec (α : Type) where
  m_arr : List α
  m_capacity : Nat

namespace HeapVec

variable {α : Type}

/-- The `m_size` field: number of live elements. -/
def m_size (v : HeapVec α) : Nat := v.m_arr.length

/-- `reserve(cap)` (lines 35-53): no-op if `cap <= m_capacity`, else reallocate.
The migration loop copies (or moves) every live element in index order, so the
live contents are unchanged; only the capacity grows. -/
def reserve (v : HeapVec α) (cap : Nat) : HeapVec α :=
  if cap ≤ v.m_capacity then v else { v with m_capacity := cap }

/-- `empty()` (lines 55-57): `!m_size`. -/
def empty (v : HeapVec α) : Bool := v.m_arr.isEmpty

/-- `front()` (lines 59-61): `m_arr[0]`. -/
def front [Inhabited α] (v : HeapVec α) : α := nthD v.m_arr 0

/-- `back()` (lines 63-65): `m_arr[m_size - 1]`. -/
def back [Inhabited α] (v : HeapVec α) : α := nthD v.m_arr (v.m_size - 1)

/-- `pop_back()` (lines 67-70): decrement `m_size` if positive; the capacity
(and buffer) is kept. -/
def pop_back (v : HeapVec α) : HeapVec α :=
  if 0 < v.m_size then { v with m_arr := v.m_arr.dropLast } else v

/-- `push_back(element)` (lines 80-92): grow by doubling (minimum capacity 1)
when full, then write the element at index `m_size` and increment `m_size`.
`emplace_back` (lines 72-78) constructs in place at the same index and is the
same function on values. -/
def push_back (v : HeapVec α) (element : α) : HeapVec α :=
  let v' := if v.m_size ≥ v.m_capacity
    then v.reserve (if v.m_capacity = 0 then 1 else v.m_capacity * 2)
    else v
  { v' with m_arr := v'.m_arr ++ [element] }

end HeapVec

/-- The error thrown by `pop()`/`top()` on an empty queue:
`std::runtime_error("pop() attempted on empty communication queue.")` resp.
`std::runtime_error("top() attempted on empty communication queue.")` — the
spec's `EmptyQueueError`. -/
inductive QueueError where
  | emptyQueueError : QueueError
deriving DecidableEq

/-- Model of `ThreadedPriorityQueue<T, Comp>` (header lines 26-327): the heap
storage and the shutdown flag.  `m_commMutex` and `m_readCondition` carry no
value-level state and are not represented. -/
structure ThreadedPriorityQueue (α : Type) where
  m_heapVector : HeapVec α
  m_isDone : Bool

/-- One iteration step of the `while` loop of `percolate_up` (lines 110-123),
with `fuel` bounding the number of iterations.  The loop body swaps the element
with its parent, moves to the parent index and recomputes the parent index
(guarded by `index > 0`, exactly as in the source). -/
def percolate_up_go {α : Type} [Inhabited α] (cmp : α → α → Bool) :
    List α → Nat → Nat → Nat → List α
  | l, _, _, 0 => l
  | l, index, parent_index, fuel+1 =>
    if 0 < index ∧ cmp (nthD l index) (nthD l parent_index) = true then
      percolate_up_go cmp (listSwap l index parent_index) parent_index
        (if 0 < parent_index then (parent_index - 1) / 2 else parent_index) fuel
    else l

/-- `percolate_up(index)` (lines 110-123): return at the root, else loop.  The
loop index strictly decreases, so `index` iterations of fuel always suffice. -/
def percolate_up {α : Type} [Inhabited α] (cmp : α → α → Bool)
    (l : List α) (index : Nat) : List α :=
  if index = 0 then l
  else percolate_up_go cmp l index ((index - 1) / 2) index

/-- The value of the local `largest_index` after the first comparison of the
`percolate_down` loop body (lines 132-135): the left child
`left_child = 2*index+1` if it exists and is better than `index`, else
`index`. -/
def largestAfterLeft {α : Type} [Inhabited α] (cmp : α → α → Bool) (n : Nat)
    (l : List α) (index : Nat) : Nat :=
  if 2 * index + 1 < n ∧ cmp (nthD l (2 * index + 1)) (nthD l index) = true
  then 2 * index + 1 else index

/-- The value of the local `largest_index` after the second comparison of the
`percolate_down` loop body (lines 137-139): the right child
`right_child = 2*index+2` if it exists and is better than the current
`largest_index`, else the current `largest_index`. -/
def largestAfterRight {α : Type} [Inhabited α] (cmp : α → α → Bool) (n : Nat)
    (l : List α) (index : Nat) : Nat :=
  if 2 * index + 2 < n ∧
      cmp (nthD l (2 * index + 2)) (nthD l (largestAfterLeft cmp n l index)) = true
  then 2 * index + 2 else largestAfterLeft cmp n l index

/-- One iteration step of the `while` loop of `percolate_down` (lines 125-147),
with `fuel` bounding the number of iterations.  `n` is the size captured once
at entry (`const size_t n = m_heapVector.m_size`); the loop body breaks if
`largest_index == index`, else swaps and continues from `largest_index`. -/
def percolate_down_go {α : Type} [Inhabited α] (cmp : α → α → Bool) (n : Nat) :
    List α → Nat → Nat → List α
  | l, _, 0 => l
  | l, index, fuel+1 =>
    if 2 * index + 1 < n then
      if largestAfterRight cmp n l index = index then l
      else
        percolate_down_go cmp n (listSwap l index (largestAfterRight cmp n l index))
          (largestAfterRight cmp n l index) fuel
    else l

/-- `percolate_down(index)` (lines 125-147).  The loop index strictly increases
and stays below `n`, so `n` iterations of fuel always suffice. -/
def percolate_down {α : Type} [Inhabited α] (cmp : α → α → Bool)
    (l : List α) (index : Nat) : List α :=
  percolate_down_go cmp l.length l index l.length

/-- The storage update performed by the non-error branch of `pop()`
(lines 193-198, also the body of `wait_nonempty_pop()`, lines 270-275): if
`m_size > 1`, overwrite the root with `back()`, `pop_back()`, then
`percolate_down(0)`; else just `pop_back()` (which on the remaining single
element is `dropLast`). -/
def popArr {α : Type} [Inhabited α] (cmp : α → α → Bool) (l : List α) : List α :=
  if 1 < l.length then
    percolate_down cmp ((l.set 0 (nthD l (l.length - 1))).dropLast) 0
  else l.dropLast

namespace ThreadedPriorityQueue

variable {α : Type}

/-- The default constructor (line 149): empty storage, no capacity, not done. -/
def fresh (α : Type) : ThreadedPriorityQueue α :=
  { m_heapVector := { m_arr := [], m_capacity := 0 }, m_isDone := false }

/-- The reserving constructor (line 150): `m_heapVector.reserve(reserve)`. -/
def freshReserve (α : Type) (r : Nat) : ThreadedPriorityQueue α :=
  { m_heapVector := HeapVec.reserve { m_arr := [], m_capacity := 0 } r,
    m_isDone := false }

/-- `size()` (lines 292-294). -/
def size (q : ThreadedPriorityQueue α) : Nat := q.m_heapVector.m_size

/-- `empty()` (lines 296-298). -/
def empty (q : ThreadedPriorityQueue α) : Bool := q.m_heapVector.empty

/-- `push(item)` (lines 164-184, all three overloads coincide on values):
`push_back`, then `percolate_up(m_size - 1)`, then `notify_one`. -/
def push [Inhabited α] (cmp : α → α → Bool) (q : ThreadedPriorityQueue α)
    (item : α) : ThreadedPriorityQueue α :=
  let v := q.m_heapVector.push_back item
  { q with m_heapVector := { v with m_arr := percolate_up cmp v.m_arr (v.m_size - 1) } }

/-- `pop()` (lines 186-205).  Returns the thrown error or the removed element,
together with the resulting queue state and whether the final
`m_readCondition.notify_one()` fired (it fires iff the queue became empty; that
wakes a `wait_empty_push` waiter). -/
def pop [Inhabited α] (cmp : α → α → Bool) (q : ThreadedPriorityQueue α) :
    Except QueueError α × ThreadedPriorityQueue α × Bool :=
  if q.m_heapVector.empty then
    (Except.error QueueError.emptyQueueError, q, false)
  else
    (Except.ok q.m_heapVector.front,
      { q with m_heapVector :=
        { q.m_heapVector with m_arr := popArr cmp q.m_heapVector.m_arr } },
      (popArr cmp q.m_heapVector.m_arr).isEmpty)

/-- `top()` (lines 285-290).  The C++ signature is `const T&` returning a
reference to `m_heapVector.front()`; the model returns the root value together
with the (unchanged) queue state. -/
def top [Inhabited α] (q : ThreadedPriorityQueue α) :
    Except QueueError α × ThreadedPriorityQueue α :=
  if q.m_heapVector.empty then
    (Except.error QueueError.emptyQueueError, q)
  else (Except.ok q.m_heapVector.front, q)

/-- The wake predicate of `wait_empty_push`'s condition-variable wait
(lines 211-214): `m_heapVector.empty() || m_isDone`. -/
def emptyPushWake (q : ThreadedPriorityQueue α) : Prop :=
  q.empty = true ∨ q.m_isDone = true

/-- Body of `wait_empty_push(item)` (lines 208-255, all overloads coincide on
values) executed after the wake predicate became true: return without pushing
if `m_isDone`, else push exactly as `push` does. -/
def wait_empty_push [Inhabited α] (cmp : α → α → Bool)
    (q : ThreadedPriorityQueue α) (item : α) : ThreadedPriorityQueue α :=
  if q.m_isDone then q
  else
    let v := q.m_heapVector.push_back item
    { q with m_heapVector := { v with m_arr := percolate_up cmp v.m_arr (v.m_size - 1) } }

/-- The wake predicate of `wait_nonempty_pop` and `wait_and_get_top`
(lines 261-263, 303-305): `!m_heapVector.empty() || m_isDone`. -/
def nonemptyWake (q : ThreadedPriorityQueue α) : Prop :=
  q.empty = false ∨ q.m_isDone = true

/-- Body of `wait_nonempty_pop()` (lines 257-282) executed after the wake
predicate became true: `nullopt` if (still) empty, else remove the root exactly
as `pop` does.  The `Bool` reports the became-empty `notify_one`. -/
def wait_nonempty_pop [Inhabited α] (cmp : α → α → Bool)
    (q : ThreadedPriorityQueue α) :
    Option α × ThreadedPriorityQueue α × Bool :=
  if q.m_heapVector.empty then (none, q, false)
  else
    (some q.m_heapVector.front,
      { q with m_heapVector :=
        { q.m_heapVector with m_arr := popArr cmp q.m_heapVector.m_arr } },
      (popArr cmp q.m_heapVector.m_arr).isEmpty)

/-- Body of `wait_and_get_top()` (lines 301-311) executed after the wake
predicate became true: `nullopt` if (still) empty, else a copy of the root.
The method is `const`; it does not change the queue. -/
def wait_and_get_top [Inhabited α] (q : ThreadedPriorityQueue α) : Option α :=
  if q.m_heapVector.empty then none else some q.m_heapVector.front

/-- `done()` (lines 314-322): set `m_isDone`, then `notify_all`. -/
def done (q : ThreadedPriorityQueue α) : ThreadedPriorityQueue α :=
  { q with m_isDone := true }

/-- `is_done()` (lines 324-326). -/
def is_done (q : ThreadedPriorityQueue α) : Bool := q.m_isDone

/-- Push a list of items in order. -/
def pushAll [Inhabited α] (cmp : α → α → Bool) (q : ThreadedPriorityQueue α)
    (items : List α) : ThreadedPriorityQueue α :=
  items.foldl (fun q item => push cmp q item) q

/-- Apply `pop` `n` times, keeping the queue state (a throwing `pop` leaves the
state unchanged, as in the source where the throw happens before any
mutation). -/
def popN [Inhabited α] (cmp : α → α → Bool) :
    Nat → ThreadedPriorityQueue α → ThreadedPriorityQueue α
  | 0, q => q
  | n+1, q => popN cmp n (pop cmp q).2.1

/-- The values returned by `n` successive `pop` calls (stopping early on the
empty-queue error, which cannot happen in the theorems below). -/
def popList [Inhabited α] (cmp : α → α → Bool) :
    ThreadedPriorityQueue α → Nat → List α
  | _, 0 => []
  | q, n+1 =>
    match pop cmp q with
    | (Except.ok t, q', _) => t :: popList cmp q' n
    | (Except.error _, _, _) => []

end ThreadedPriorityQueue

/-- A single-threaded `push`/`pop` call. -/
inductive HeapOp (α : Type) where
  | pushOp (item : α)
  | popOp

/-- State transition of one `push`/`pop` call. -/
def runOp {α : Type} [Inhabited α] (cmp : α → α → Bool)
    (q : ThreadedPriorityQueue α) : HeapOp α → ThreadedPriorityQueue α
  | HeapOp.pushOp item => q.push cmp item
  | HeapOp.popOp => (q.pop cmp).2.1

/-- State after a single-threaded sequence of `push`/`pop` calls. -/
def run {α : Type} [Inhabited α] (cmp : α → α → Bool)
    (q : ThreadedPriorityQueue α) (ops : List (HeapOp α)) :
    ThreadedPriorityQueue α :=
  ops.foldl (runOp cmp) q

/-- Any single-threaded call of the public interface. -/
inductive QueueOp (α : Type) where
  | pushOp (item : α)
  | popOp
  | topOp
  | sizeOp
  | emptyOp
  | waitEmptyPushOp (item : α)
  | waitNonemptyPopOp
  | waitAndGetTopOp
  | doneOp
  | isDoneOp

/-- State transition of one public-interface call. -/
def runQueueOp {α : Type} [Inhabited α] (cmp : α → α → Bool)
    (q : ThreadedPriorityQueue α) : QueueOp α → ThreadedPriorityQueue α
  | QueueOp.pushOp item => q.push cmp item
  | QueueOp.popOp => (q.pop cmp).2.1
  | QueueOp.topOp => (q.top).2
  | QueueOp.sizeOp => q
  | QueueOp.emptyOp => q
  | QueueOp.waitEmptyPushOp item => q.wait_empty_push cmp item
  | QueueOp.waitNonemptyPopOp => (q.wait_nonempty_pop cmp).2.1
  | QueueOp.waitAndGetTopOp => q
  | QueueOp.doneOp => q.done
  | QueueOp.isDoneOp => q

/-- State after a single-threaded sequence of public-interface calls. -/
def runQueue {α : Type} [Inhabited α] (cmp : α → α → Bool)
    (q : ThreadedPriorityQueue α) (ops : List (QueueOp α)) :
    ThreadedPriorityQueue α :=
  ops.foldl (runQueueOp cmp) q

/-- The heap invariant exactly as the spec states it: for every index `i` whose
child `2i+1` (resp. `2i+2`) is below the current length,
`Order(heap[child], heap[i])` is false. -/
def heapProp {α : Type} [Inhabited α] (cmp : α → α → Bool) (l : List α) : Prop :=
  ∀ i, i < l.length →
    (2 * i + 1 < l.length → cmp (nthD l (2 * i + 1)) (nthD l i) = false) ∧
    (2 * i + 2 < l.length → cmp (nthD l (2 * i + 2)) (nthD l i) = false)

instance heapProp.instDecidable {α : Type} [Inhabited α] (cmp : α → α → Bool)
    (l : List α) : Decidable (heapProp cmp l) :=
  inferInstanceAs (Decidable (∀ i, i < l.length → _ ∧ _))

/-- The same invariant indexed by the child: every non-root live index is not
better than its parent `(j-1)/2` under `cmp`. -/
def heapOrdered {α : Type} [Inhabited α] (cmp : α → α → Bool) (l : List α) : Prop :=
  ∀ j, 0 < j → j < l.length → cmp (nthD l j) (nthD l ((j - 1) / 2)) = false

/-- Asymmetry of a strict comparison capability. -/
def CmpAsymm {α : Type} (cmp : α → α → Bool) : Prop :=
  ∀ a b, cmp a b = true → cmp b a = false

/-- Transitivity of a strict comparison capability. -/
def CmpTrans {α : Type} (cmp : α → α → Bool) : Prop :=
  ∀ a b c, cmp a b = true → cmp b c = true → cmp a c = true

/-- Negative transitivity (transitivity of the complement). -/
def CmpNegTrans {α : Type} (cmp : α → α → Bool) : Prop :=
  ∀ a b c, cmp a b = false → cmp b c = false → cmp a c = false

/-- A strict comparison capability in the sense of the spec's `Order`. -/
def StrictCmp {α : Type} (cmp : α → α → Bool) : Prop :=
  CmpAsymm cmp ∧ CmpTrans cmp ∧ CmpNegTrans cmp

/-- Modelled from the spec: the child of `i` (among the existing ones) that
most violates the property relative to `i` under `Order`, with the left child
preferred on ties — the right child is selected only when it exists and is
strictly better than the left child under `Order`.  Only meaningful when `i`
has at least one child (`2*i+1 < n`). -/
def specCand {α : Type} [Inhabited α] (cmp : α → α → Bool) (n : Nat)
    (l : List α) (i : Nat) : Nat :=
  if 2 * i + 2 < n ∧ cmp (nthD l (2 * i + 2)) (nthD l (2 * i + 1)) = true
  then 2 * i + 2 else 2 * i + 1

/-- Modelled from the spec: one iteration of the `sift_down(i)` description —
while `i` has at least one child, find the child (between left and right, left
preferred on ties) that most violates the property relative to `i` under
`Order`; if that child is better than `i` under `Order`, swap and continue from
the child's index, else stop. -/
def sift_down_spec_go {α : Type} [Inhabited α] (cmp : α → α → Bool) (n : Nat) :
    List α → Nat → Nat → List α
  | l, _, 0 => l
  | l, i, fuel+1 =>
    if 2 * i + 1 < n then
      if cmp (nthD l (specCand cmp n l i)) (nthD l i) = true then
        sift_down_spec_go cmp n (listSwap l i (specCand cmp n l i)) (specCand cmp n l i) fuel
      else l
    else l

/-- Modelled from the spec: the full `sift_down(i)` description (same fuel
convention as `percolate_down`). -/
def sift_down_spec {α : Type} [Inhabited α] (cmp : α → α → Bool)
    (l : List α) (i : Nat) : List α :=
  sift_down_spec_go cmp l.length l i l.length

/-- Proof device: the invariant of the `percolate_up` loop when the possibly
misplaced element sits at index `k` — every other live parent/child pair is
ordered, and the children of `k` are additionally not better than `k`'s
parent. -/
def puInv {α : Type} [Inhabited α] (cmp : α → α → Bool) (l : List α) (k : Nat) : Prop :=
  (∀ j, 0 < j → j < l.length → j ≠ k →
    cmp (nthD l j) (nthD l ((j - 1) / 2)) = false) ∧
  (0 < k → ∀ j, 0 < j → j < l.length → (j - 1) / 2 = k →
    cmp (nthD l j) (nthD l ((k - 1) / 2)) = false)

/-- Proof device: the invariant of the `percolate_down` loop when the possibly
misplaced element sits at index `k` — every live parent/child pair whose parent
is not `k` is ordered, and the children of `k` are additionally not better than
`k`'s parent. -/
def pdInv {α : Type} [Inhabited α] (cmp : α → α → Bool) (l : List α) (k : Nat) : Prop :=
  (∀ j, 0 < j → j < l.length → (j - 1) / 2 ≠ k →
    cmp (nthD l j) (nthD l ((j - 1) / 2)) = false) ∧
  (0 < k → ∀ j, 0 < j → j < l.length → (j - 1) / 2 = k →
    cmp (nthD l j) (nthD l ((k - 1) / 2)) = false)

/-! ### Basic facts about `nthD`, `listSwap` and the storage operations -/

theorem nthD_eq_getElem {α : Type} [Inhabited α] (l : List α) (i : Nat)
    (h : i < l.length) : nthD l i = l[i] :=
  List.getD_eq_getElem l default h

theorem length_listSwap {α : Type} [Inhabited α] (l : List α) (i j : Nat) :
    (listSwap l i j).length = l.length := by
  simp [listSwap]

theorem nthD_set_ne {α : Type} [Inhabited α] (l : List α) (a : α) {i k : Nat}
    (h : i ≠ k) : nthD (l.set i a) k = nthD l k := by
  unfold nthD
  rw [List.getD_eq_getElem?_getD, List.getD_eq_getElem?_getD, List.getElem?_set]
  simp [h]

theorem nthD_set_eq {α : Type} [Inhabited α] (l : List α) (a : α) {i : Nat}
    (h : i < l.length) : nthD (l.set i a) i = a := by
  unfold nthD
  rw [List.getD_eq_getElem?_getD, List.getElem?_set]
  simp [h]

theorem nthD_listSwap_right {α : Type} [Inhabited α] (l : List α) {i j : Nat}
    (hj : j < l.length) : nthD (listSwap l i j) j = nthD l i := by
  unfold listSwap
  exact nthD_set_eq _ _ (by simpa using hj)

theorem nthD_listSwap_left {α : Type} [Inhabited α] (l : List α) {i j : Nat}
    (hi : i < l.length) (hne : j ≠ i) : nthD (listSwap l i j) i = nthD l j := by
  unfold listSwap
  rw [nthD_set_ne _ _ hne]
  exact nthD_set_eq _ _ hi

theorem nthD_listSwap_other {α : Type} [Inhabited α] (l : List α) {i j k : Nat}
    (h1 : k ≠ i) (h2 : k ≠ j) : nthD (listSwap l i j) k = nthD l k := by
  unfold listSwap
  rw [nthD_set_ne _ _ (fun h => h2 h.symm), nthD_set_ne _ _ (fun h => h1 h.symm)]

theorem listSwap_perm {α : Type} [Inhabited α] [DecidableEq α] (l : List α)
    {i j : Nat} (hi : i < l.length) (hj : j < l.length) :
    (listSwap l i j).Perm l := by
  rw [List.perm_iff_count]
  intro b
  unfold listSwap
  have hj' : j < (l.set i (nthD l j)).length := by simpa using hj
  rw [List.count_set _ _ _ _ hj', List.count_set _ _ _ _ hi]
  have hset : (l.set i (nthD l j))[j] = nthD l j := by
    rw [List.getElem_set]
    split
    · rfl
    · exact (nthD_eq_getElem l j hj).symm
  rw [hset, nthD_eq_getElem l j hj, nthD_eq_getElem l i hi]
  have hcount : (if (l[i] == b) = true then 1 else 0) ≤ List.count b l := by
    split
    · rename_i hb
      have hbeq : l[i] = b := by simpa using hb
      have : b ∈ l := hbeq ▸ List.getElem_mem hi
      exact List.count_pos_iff.2 this
    · omega
  by_cases h1 : l[i] = b <;> by_cases h2 : l[j] = b <;>
    simp only [h1, h2, beq_iff_eq, if_true, if_false, beq_self_eq_true,
      ite_true, ite_false, if_neg, reduceIte] at hcount ⊢
  · omega
  · omega
  · omega
  · omega

theorem nthD_append_left {α : Type} [Inhabited α] (l l₂ : List α) {k : Nat}
    (h : k < l.length) : nthD (l ++ l₂) k = nthD l k := by
  rw [nthD_eq_getElem _ _ (by simp; omega), nthD_eq_getElem _ _ h]
  exact List.getElem_append_left h

theorem nthD_append_last {α : Type} [Inhabited α] (l : List α) (x : α) :
    nthD (l ++ [x]) l.length = x := by
  rw [nthD_eq_getElem _ _ (by simp)]
  simp

theorem nthD_dropLast {α : Type} [Inhabited α] (l : List α) {k : Nat}
    (h : k < l.length - 1) : nthD l.dropLast k = nthD l k := by
  rw [nthD_eq_getElem _ _ (by simpa using h),
      nthD_eq_getElem _ _ (by omega)]
  exact List.getElem_dropLast l k _

theorem push_back_arr {α : Type} (v : HeapVec α) (x : α) :
    (v.push_back x).m_arr = v.m_arr ++ [x] := by
  unfold HeapVec.push_back HeapVec.reserve
  repeat' split
  all_goals rfl

/-! ### Comparator facts -/

theorem cmp_irrefl {α : Type} {cmp : α → α → Bool} (hA : CmpAsymm cmp) (a : α) :
    cmp a a = false := by
  cases h : cmp a a
  · rfl
  · have hfalse := hA a a h
    rw [h] at hfalse
    exact hfalse

theorem strictCmp_min {α : Type} [LinearOrder α] :
    StrictCmp (MinHeapComparitor (α := α)) := by
  refine ⟨?_, ?_, ?_⟩
  · intro a b h
    simp only [MinHeapComparitor, decide_eq_true_eq] at h
    simpa [MinHeapComparitor] using lt_asymm h
  · intro a b c h1 h2
    simp only [MinHeapComparitor, decide_eq_true_eq] at h1 h2
    simpa [MinHeapComparitor] using lt_trans h1 h2
  · intro a b c h1 h2
    simp only [MinHeapComparitor, decide_eq_false_iff_not] at h1 h2
    simp only [MinHeapComparitor, decide_eq_false_iff_not]
    rw [not_lt] at h1 h2 ⊢
    exact le_trans h2 h1

theorem strictCmp_max {α : Type} [LinearOrder α] :
    StrictCmp (MaxHeapComparitor (α := α)) := by
  refine ⟨?_, ?_, ?_⟩
  · intro a b h
    simp only [MaxHeapComparitor, gt_iff_lt, decide_eq_true_eq] at h
    simpa [MaxHeapComparitor] using lt_asymm h
  · intro a b c h1 h2
    simp only [MaxHeapComparitor, gt_iff_lt, decide_eq_true_eq] at h1 h2
    simpa [MaxHeapComparitor] using lt_trans h2 h1
  · intro a b c h1 h2
    simp only [MaxHeapComparitor, gt_iff_lt, decide_eq_false_iff_not] at h1 h2
    simp only [MaxHeapComparitor, gt_iff_lt, decide_eq_false_iff_not]
    rw [not_lt] at h1 h2 ⊢
    exact le_trans h1 h2

/-! ### The two index conventions for the heap invariant agree -/

theorem heapProp_iff_heapOrdered {α : Type} [Inhabited α] (cmp : α → α → Bool)
    (l : List α) : heapProp cmp l ↔ heapOrdered cmp l := by
  constructor
  · intro h j hj0 hjlen
    have hp : (j - 1) / 2 < l.length := by omega
    have hcase : j = 2 * ((j - 1) / 2) + 1 ∨ j = 2 * ((j - 1) / 2) + 2 := by omega
    rcases hcase with h1 | h1
    · have := (h ((j - 1) / 2) hp).1 (h1 ▸ hjlen)
      rwa [← h1] at this
    · have := (h ((j - 1) / 2) hp).2 (h1 ▸ hjlen)
      rwa [← h1] at this
  · intro h i _
    constructor
    · intro hc
      have := h (2 * i + 1) (by omega) hc
      have heq : (2 * i + 1 - 1) / 2 = i := by omega
      rwa [heq] at this
    · intro hc
      have := h (2 * i + 2) (by omega) hc
      have heq : (2 * i + 2 - 1) / 2 = i := by omega
      rwa [heq] at this

/-- In a heap, no live element is better than the root. -/
theorem heapOrdered_root {α : Type} [Inhabited α] {cmp : α → α → Bool}
    (hA : CmpAsymm cmp) (hNT : CmpNegTrans cmp) {l : List α}
    (hl : heapOrdered cmp l) : ∀ j, j < l.length → cmp (nthD l j) (nthD l 0) = false := by
  intro j
  induction j using Nat.strong_induction_on with
  | _ j ih =>
    intro hj
    rcases Nat.eq_zero_or_pos j with rfl | hj0
    · exact cmp_irrefl hA _
    · have hpar := hl j hj0 hj
      have hlt : (j - 1) / 2 < j := by omega
      exact hNT _ _ _ hpar (ih _ hlt (by omega))

theorem heapOrdered_of_short {α : Type} [Inhabited α] (cmp : α → α → Bool)
    {l : List α} (h : l.length ≤ 1) : heapOrdered cmp l := by
  intro j hj0 hjl
  omega

/-! ### Length preservation and fuel insensitivity of the percolate loops -/

theorem percolate_up_go_length {α : Type} [Inhabited α] (cmp : α → α → Bool) :
    ∀ (fuel : Nat) (l : List α) (index parent : Nat),
      (percolate_up_go cmp l index parent fuel).length = l.length := by
  intro fuel
  induction fuel with
  | zero => intro l index parent; rfl
  | succ fuel ih =>
    intro l index parent
    unfold percolate_up_go
    split
    · rw [ih, length_listSwap]
    · rfl

theorem percolate_up_length {α : Type} [Inhabited α] (cmp : α → α → Bool)
    (l : List α) (index : Nat) :
    (percolate_up cmp l index).length = l.length := by
  unfold percolate_up
  split
  · rfl
  · exact percolate_up_go_length cmp _ _ _ _

theorem percolate_down_go_length {α : Type} [Inhabited α] (cmp : α → α → Bool)
    (n : Nat) : ∀ (fuel : Nat) (l : List α) (index : Nat),
      (percolate_down_go cmp n l index fuel).length = l.length := by
  intro fuel
  induction fuel with
  | zero => intro l index; rfl
  | succ fuel ih =>
    intro l index
    unfold percolate_down_go
    split
    · split
      · rfl
      · rw [ih, length_listSwap]
    · rfl

theorem percolate_down_length {α : Type} [Inhabited α] (cmp : α → α → Bool)
    (l : List α) (index : Nat) :
    (percolate_down cmp l index).length = l.length :=
  percolate_down_go_length cmp _ _ _ _

theorem percolate_up_go_fuel {α : Type} [Inhabited α] (cmp : α → α → Bool) :
    ∀ (f₁ f₂ : Nat) (l : List α) (index parent : Nat),
      index ≤ f₁ → index ≤ f₂ → (0 < index → parent = (index - 1) / 2) →
      percolate_up_go cmp l index parent f₁ = percolate_up_go cmp l index parent f₂ := by
  intro f₁
  induction f₁ with
  | zero =>
    intro f₂ l index parent h1 _ _
    have hidx : index = 0 := by omega
    subst hidx
    cases f₂ with
    | zero => rfl
    | succ f₂ =>
      show percolate_up_go cmp l 0 parent 0 = percolate_up_go cmp l 0 parent (f₂ + 1)
      unfold percolate_up_go
      rw [if_neg]
      intro hc
      exact absurd hc.1 (by omega)
  | succ f₁ ih =>
    intro f₂ l index parent h1 h2 hpar
    cases f₂ with
    | zero =>
      have hidx : index = 0 := by omega
      subst hidx
      show percolate_up_go cmp l 0 parent (f₁ + 1) = percolate_up_go cmp l 0 parent 0
      unfold percolate_up_go
      rw [if_neg]
      intro hc
      exact absurd hc.1 (by omega)
    | succ f₂ =>
      show percolate_up_go cmp l index parent (f₁ + 1) = percolate_up_go cmp l index parent (f₂ + 1)
      unfold percolate_up_go
      split
      · rename_i hc
        have hpar' := hpar hc.1
        apply ih
        · omega
        · omega
        · intro hp
          rw [if_pos hp]
      · rfl

/-- The selected `largest_index` is either `index` itself, or one of the two
children of `index` and in bounds. -/
theorem largestAfterRight_cases {α : Type} [Inhabited α] (cmp : α → α → Bool)
    (n : Nat) (l : List α) (index : Nat) :
    largestAfterRight cmp n l index = index ∨
    ((largestAfterRight cmp n l index = 2 * index + 1 ∨
      largestAfterRight cmp n l index = 2 * index + 2) ∧
      largestAfterRight cmp n l index < n) := by
  unfold largestAfterRight largestAfterLeft
  by_cases h1 : 2 * index + 1 < n ∧ cmp (nthD l (2 * index + 1)) (nthD l index) = true
  · rw [if_pos h1]
    by_cases h2 : 2 * index + 2 < n ∧ cmp (nthD l (2 * index + 2)) (nthD l (2 * index + 1)) = true
    · rw [if_pos h2]
      exact Or.inr ⟨Or.inr rfl, h2.1⟩
    · rw [if_neg h2]
      exact Or.inr ⟨Or.inl rfl, h1.1⟩
  · rw [if_neg h1]
    by_cases h2 : 2 * index + 2 < n ∧ cmp (nthD l (2 * index + 2)) (nthD l index) = true
    · rw [if_pos h2]
      exact Or.inr ⟨Or.inr rfl, h2.1⟩
    · rw [if_neg h2]
      exact Or.inl rfl

theorem percolate_down_go_fuel {α : Type} [Inhabited α] (cmp : α → α → Bool)
    (n : Nat) : ∀ (f₁ f₂ : Nat) (l : List α) (index : Nat),
      n - index ≤ f₁ → n - index ≤ f₂ →
      percolate_down_go cmp n l index f₁ = percolate_down_go cmp n l index f₂ := by
  intro f₁
  induction f₁ with
  | zero =>
    intro f₂ l index h1 _
    cases f₂ with
    | zero => rfl
    | succ f₂ =>
      show percolate_down_go cmp n l index 0 = percolate_down_go cmp n l index (f₂ + 1)
      unfold percolate_down_go
      rw [if_neg]
      omega
  | succ f₁ ih =>
    intro f₂ l index h1 h2
    cases f₂ with
    | zero =>
      show percolate_down_go cmp n l index (f₁ + 1) = percolate_down_go cmp n l index 0
      unfold percolate_down_go
      rw [if_neg]
      omega
    | succ f₂ =>
      show percolate_down_go cmp n l index (f₁ + 1) = percolate_down_go cmp n l index (f₂ + 1)
      unfold percolate_down_go
      split
      · rename_i hguard
        split
        · rfl
        · rename_i hne
          rcases largestAfterRight_cases cmp n l index with h | ⟨hcase, hlt⟩
          · exact absurd h hne
          · apply ih <;> omega
      · rfl

/-! ### Permutation facts for the percolate loops -/

theorem percolate_up_go_perm {α : Type} [Inhabited α] [DecidableEq α]
    (cmp : α → α → Bool) : ∀ (fuel : Nat) (l : List α) (index parent : Nat),
      index < l.length → (0 < index → parent = (index - 1) / 2) →
      (percolate_up_go cmp l index parent fuel).Perm l := by
  intro fuel
  induction fuel with
  | zero => intro l index parent _ _; exact List.Perm.refl _
  | succ fuel ih =>
    intro l index parent hlen hpar
    unfold percolate_up_go
    split
    · rename_i hc
      have hp := hpar hc.1
      have hplt : parent < index := by omega
      refine List.Perm.trans (ih _ _ _ ?_ ?_) (listSwap_perm l hlen (by omega))
      · rw [length_listSwap]
        omega
      · intro hpp
        rw [if_pos hpp]
    · exact List.Perm.refl _

theorem percolate_up_perm {α : Type} [Inhabited α] [DecidableEq α]
    (cmp : α → α → Bool) {l : List α} {index : Nat} (hlen : index < l.length) :
    (percolate_up cmp l index).Perm l := by
  unfold percolate_up
  split
  · exact List.Perm.refl _
  · exact percolate_up_go_perm cmp _ _ _ _ hlen (fun _ => rfl)

theorem percolate_down_go_perm {α : Type} [Inhabited α] [DecidableEq α]
    (cmp : α → α → Bool) : ∀ (fuel n : Nat) (l : List α) (index : Nat),
      n = l.length → (percolate_down_go cmp n l index fuel).Perm l := by
  intro fuel
  induction fuel with
  | zero => intro n l index _; exact List.Perm.refl _
  | succ fuel ih =>
    intro n l index hn
    unfold percolate_down_go
    split
    · rename_i hguard
      split
      · exact List.Perm.refl _
      · rename_i hne
        rcases largestAfterRight_cases cmp n l index with h | ⟨hcase, hlt⟩
        · exact absurd h hne
        · have hidx : index < l.length := by omega
          have hmlt : largestAfterRight cmp n l index < l.length := by omega
          refine List.Perm.trans (ih _ _ _ ?_) (listSwap_perm l hidx hmlt)
          rw [length_listSwap]
          exact hn
    · exact List.Perm.refl _

theorem percolate_down_perm {α : Type} [Inhabited α] [DecidableEq α]
    (cmp : α → α → Bool) (l : List α) (index : Nat) :
    (percolate_down cmp l index).Perm l :=
  percolate_down_go_perm cmp _ _ _ _ rfl

/-! ### Characterization of the selected child -/

theorem largestAfterRight_eq_self {α : Type} [Inhabited α] {cmp : α → α → Bool}
    {n : Nat} {l : List α} {index : Nat} (hguard : 2 * index + 1 < n)
    (heq : largestAfterRight cmp n l index = index) :
    cmp (nthD l (2 * index + 1)) (nthD l index) = false ∧
    (2 * index + 2 < n → cmp (nthD l (2 * index + 2)) (nthD l index) = false) := by
  unfold largestAfterRight largestAfterLeft at heq
  by_cases h1 : 2 * index + 1 < n ∧ cmp (nthD l (2 * index + 1)) (nthD l index) = true
  · rw [if_pos h1] at heq
    split at heq <;> omega
  · rw [if_neg h1] at heq
    have hL : cmp (nthD l (2 * index + 1)) (nthD l index) = false := by
      cases hx : cmp (nthD l (2 * index + 1)) (nthD l index)
      · rfl
      · exact absurd ⟨hguard, hx⟩ h1
    refine ⟨hL, fun h2n => ?_⟩
    by_cases h2 : 2 * index + 2 < n ∧ cmp (nthD l (2 * index + 2)) (nthD l index) = true
    · rw [if_pos h2] at heq
      omega
    · cases hx : cmp (nthD l (2 * index + 2)) (nthD l index)
      · rfl
      · exact absurd ⟨h2n, hx⟩ h2

theorem largestAfterRight_spec {α : Type} [Inhabited α] {cmp : α → α → Bool}
    (hA : CmpAsymm cmp) (hT : CmpTrans cmp) (hNT : CmpNegTrans cmp)
    {n : Nat} {l : List α} {index : Nat} (hguard : 2 * index + 1 < n)
    (hne : largestAfterRight cmp n l index ≠ index) :
    cmp (nthD l (largestAfterRight cmp n l index)) (nthD l index) = true ∧
    (∀ o, (o = 2 * index + 1 ∨ o = 2 * index + 2) →
      o ≠ largestAfterRight cmp n l index → o < n →
      cmp (nthD l o) (nthD l (largestAfterRight cmp n l index)) = false) ∧
    (largestAfterRight cmp n l index = 2 * index + 2 →
      cmp (nthD l (2 * index + 2)) (nthD l (2 * index + 1)) = true) ∧
    (largestAfterRight cmp n l index = 2 * index + 1 →
      ¬(2 * index + 2 < n ∧ cmp (nthD l (2 * index + 2)) (nthD l (2 * index + 1)) = true)) := by
  unfold largestAfterRight largestAfterLeft at hne ⊢
  by_cases h1 : 2 * index + 1 < n ∧ cmp (nthD l (2 * index + 1)) (nthD l index) = true
  · rw [if_pos h1] at hne ⊢
    by_cases h2 : 2 * index + 2 < n ∧ cmp (nthD l (2 * index + 2)) (nthD l (2 * index + 1)) = true
    · rw [if_pos h2] at hne ⊢
      refine ⟨hT _ _ _ h2.2 h1.2, ?_, fun _ => h2.2, fun h => by omega⟩
      intro o ho hom _
      have : o = 2 * index + 1 := by omega
      subst this
      exact hA _ _ h2.2
    · rw [if_neg h2] at hne ⊢
      refine ⟨h1.2, ?_, fun h => by omega, fun _ => h2⟩
      intro o ho hom holt
      have : o = 2 * index + 2 := by omega
      subst this
      cases hx : cmp (nthD l (2 * index + 2)) (nthD l (2 * index + 1))
      · rfl
      · exact absurd ⟨holt, hx⟩ h2
  · rw [if_neg h1] at hne ⊢
    have hL : cmp (nthD l (2 * index + 1)) (nthD l index) = false := by
      cases hx : cmp (nthD l (2 * index + 1)) (nthD l index)
      · rfl
      · exact absurd ⟨hguard, hx⟩ h1
    by_cases h2 : 2 * index + 2 < n ∧ cmp (nthD l (2 * index + 2)) (nthD l index) = true
    · rw [if_pos h2] at hne ⊢
      have hRL : cmp (nthD l (2 * index + 2)) (nthD l (2 * index + 1)) = true := by
        cases hx : cmp (nthD l (2 * index + 2)) (nthD l (2 * index + 1))
        · exfalso
          have := hNT _ _ _ hx hL
          rw [h2.2] at this
          simp at this
        · rfl
      refine ⟨h2.2, ?_, fun _ => hRL, fun h => by omega⟩
      intro o ho hom _
      have : o = 2 * index + 1 := by omega
      subst this
      cases hx : cmp (nthD l (2 * index + 1)) (nthD l (2 * index + 2))
      · rfl
      · exfalso
        have := hT _ _ _ hx h2.2
        rw [hL] at this
        simp at this
    · rw [if_neg h2] at hne
      exact absurd rfl hne

/-! ### The sift-up invariant is preserved by a swap with the parent -/

theorem puInv_swap {α : Type} [Inhabited α] {cmp : α → α → Bool}
    (hA : CmpAsymm cmp) (hT : CmpTrans cmp) (hNT : CmpNegTrans cmp)
    {l : List α} {k p : Nat} (hk0 : 0 < k) (hk : k < l.length)
    (hp : p = (k - 1) / 2)
    (hcmp : cmp (nthD l k) (nthD l p) = true)
    (hinv : puInv cmp l k) :
    puInv cmp (listSwap l k p) p := by
  have hpk : p < k := by omega
  have hpl : p < l.length := by omega
  have hpnek : p ≠ k := by omega
  have hsk : nthD (listSwap l k p) k = nthD l p := nthD_listSwap_left l hk hpnek
  have hsp : nthD (listSwap l k p) p = nthD l k := nthD_listSwap_right l hpl
  have hoth : ∀ x, x ≠ k → x ≠ p → nthD (listSwap l k p) x = nthD l x :=
    fun x h1 h2 => nthD_listSwap_other l h1 h2
  obtain ⟨inv1, inv2⟩ := hinv
  constructor
  · intro j hj0 hjl hjp
    have hjl' : j < l.length := by rw [length_listSwap] at hjl; exact hjl
    by_cases hjk : j = k
    · rw [hjk, ← hp, hsk, hsp]
      exact hA _ _ hcmp
    · rw [hoth j hjk hjp]
      by_cases hpj : (j - 1) / 2 = p
      · rw [hpj, hsp]
        cases hx : cmp (nthD l j) (nthD l k)
        · rfl
        · exfalso
          have h1 : cmp (nthD l j) (nthD l p) = true := hT _ _ _ hx hcmp
          have h2 := inv1 j hj0 hjl' hjk
          rw [hpj, h1] at h2
          simp at h2
      · by_cases hpk2 : (j - 1) / 2 = k
        · rw [hpk2, hsk]
          have := inv2 hk0 j hj0 hjl' hpk2
          rwa [← hp] at this
        · rw [hoth _ hpk2 hpj]
          exact inv1 j hj0 hjl' hjk
  · intro hp0 j hj0 hjl hpj
    have hjl' : j < l.length := by rw [length_listSwap] at hjl; exact hjl
    have hppk : (p - 1) / 2 ≠ k := by omega
    have hppp : (p - 1) / 2 ≠ p := by omega
    rw [hoth _ hppk hppp]
    have hP : cmp (nthD l p) (nthD l ((p - 1) / 2)) = false := by
      have := inv1 p hp0 hpl hpnek
      exact this
    by_cases hjk : j = k
    · rw [hjk, hsk]
      exact hP
    · have hjp : j ≠ p := by omega
      rw [hoth j hjk hjp]
      have hJ : cmp (nthD l j) (nthD l p) = false := by
        have := inv1 j hj0 hjl' hjk
        rwa [hpj] at this
      exact hNT _ _ _ hJ hP

/-! ### The sift-down invariant is preserved by a swap with the best child -/

theorem pdInv_swap {α : Type} [Inhabited α] {cmp : α → α → Bool}
    (hA : CmpAsymm cmp) (_hT : CmpTrans cmp) (_hNT : CmpNegTrans cmp)
    {l : List α} {k m : Nat}
    (hk : k < l.length) (hm1 : m = 2 * k + 1 ∨ m = 2 * k + 2) (hm : m < l.length)
    (hF1 : cmp (nthD l m) (nthD l k) = true)
    (hF2 : ∀ o, (o = 2 * k + 1 ∨ o = 2 * k + 2) → o ≠ m → o < l.length →
      cmp (nthD l o) (nthD l m) = false)
    (hinv : pdInv cmp l k) : pdInv cmp (listSwap l k m) m := by
  have hkm : k < m := by omega
  have hmk : (m - 1) / 2 = k := by omega
  have hknem : k ≠ m := by omega
  have hsm : nthD (listSwap l k m) m = nthD l k := nthD_listSwap_right l hm
  have hsk : nthD (listSwap l k m) k = nthD l m :=
    nthD_listSwap_left l hk (fun h => hknem h.symm)
  have hoth : ∀ x, x ≠ k → x ≠ m → nthD (listSwap l k m) x = nthD l x :=
    fun x h1 h2 => nthD_listSwap_other l h1 h2
  obtain ⟨inv1, inv2⟩ := hinv
  constructor
  · intro j hj0 hjl hpjm
    have hjl' : j < l.length := by rw [length_listSwap] at hjl; exact hjl
    by_cases hjm : j = m
    · rw [hjm, hmk, hsm, hsk]
      exact hA _ _ hF1
    · by_cases hpjk : (j - 1) / 2 = k
      · have hjnek : j ≠ k := by omega
        rw [hpjk, hsk, hoth j hjnek hjm]
        exact hF2 j (by omega) hjm hjl'
      · by_cases hjk : j = k
        · have hk0 : 0 < k := by omega
          have h1 : (k - 1) / 2 ≠ k := by omega
          have h2 : (k - 1) / 2 ≠ m := by omega
          rw [hjk, hsk, hoth _ h1 h2]
          exact inv2 hk0 m (by omega) hm hmk
        · rw [hoth j hjk hjm, hoth _ hpjk hpjm]
          exact inv1 j hj0 hjl' hpjk
  · intro _ j hj0 hjl hpj
    have hjl' : j < l.length := by rw [length_listSwap] at hjl; exact hjl
    have hjm : j ≠ m := by omega
    have hjk : j ≠ k := by omega
    rw [hmk, hsk, hoth j hjk hjm]
    have := inv1 j hj0 hjl' (by omega)
    rwa [hpj] at this

/-! ### The percolate loops restore the heap invariant -/

theorem percolate_up_go_heapOrdered {α : Type} [Inhabited α] {cmp : α → α → Bool}
    (hA : CmpAsymm cmp) (hT : CmpTrans cmp) (hNT : CmpNegTrans cmp) :
    ∀ (fuel : Nat) (l : List α) (index parent : Nat),
      index ≤ fuel → index < l.length → (0 < index → parent = (index - 1) / 2) →
      puInv cmp l index →
      heapOrdered cmp (percolate_up_go cmp l index parent fuel) := by
  intro fuel
  induction fuel with
  | zero =>
    intro l index parent hfuel _ _ hinv j hj0 hjl
    have hjl' : j < l.length := hjl
    exact hinv.1 j hj0 hjl' (by omega)
  | succ fuel ih =>
    intro l index parent hfuel hlen hpar hinv
    unfold percolate_up_go
    split
    · rename_i hc
      have hp := hpar hc.1
      apply ih
      · omega
      · rw [length_listSwap]
        omega
      · intro hpp
        rw [if_pos hpp]
      · exact puInv_swap hA hT hNT hc.1 hlen hp hc.2 hinv
    · rename_i hcond
      by_cases hpos : 0 < index
      · have hfalse : cmp (nthD l index) (nthD l parent) = false := by
          cases hx : cmp (nthD l index) (nthD l parent)
          · rfl
          · exact absurd ⟨hpos, hx⟩ hcond
        have hp := hpar hpos
        intro j hj0 hjl
        by_cases hj : j = index
        · rw [hj, ← hp]
          exact hp ▸ hfalse
        · exact hinv.1 j hj0 hjl hj
      · intro j hj0 hjl
        exact hinv.1 j hj0 hjl (by omega)

theorem percolate_up_heapOrdered {α : Type} [Inhabited α] {cmp : α → α → Bool}
    (hA : CmpAsymm cmp) (hT : CmpTrans cmp) (hNT : CmpNegTrans cmp)
    {l : List α} {index : Nat} (hlen : index < l.length)
    (hinv : puInv cmp l index) :
    heapOrdered cmp (percolate_up cmp l index) := by
  unfold percolate_up
  split
  · intro j hj0 hjl
    exact hinv.1 j hj0 hjl (by omega)
  · exact percolate_up_go_heapOrdered hA hT hNT index l index ((index - 1) / 2)
      (Nat.le_refl _) hlen (fun _ => rfl) hinv

theorem percolate_down_go_heapOrdered {α : Type} [Inhabited α] {cmp : α → α → Bool}
    (hA : CmpAsymm cmp) (hT : CmpTrans cmp) (hNT : CmpNegTrans cmp) :
    ∀ (fuel : Nat) (l : List α) (index : Nat), l.length - index ≤ fuel →
      pdInv cmp l index →
      heapOrdered cmp (percolate_down_go cmp l.length l index fuel) := by
  intro fuel
  induction fuel with
  | zero =>
    intro l index hfuel hinv j hj0 hjl
    have hjl' : j < l.length := hjl
    exact hinv.1 j hj0 hjl' (by omega)
  | succ fuel ih =>
    intro l index hfuel hinv
    unfold percolate_down_go
    split
    · rename_i hguard
      split
      · rename_i hm
        obtain ⟨hL, hR⟩ := largestAfterRight_eq_self hguard hm
        intro j hj0 hjl
        by_cases hpj : (j - 1) / 2 = index
        · have hj12 : j = 2 * index + 1 ∨ j = 2 * index + 2 := by omega
          rcases hj12 with hj1 | hj1
          · rw [hj1, show (2 * index + 1 - 1) / 2 = index by omega]
            exact hL
          · rw [hj1, show (2 * index + 2 - 1) / 2 = index by omega]
            exact hR (hj1 ▸ hjl)
        · exact hinv.1 j hj0 hjl hpj
      · rename_i hne
        rcases largestAfterRight_cases cmp l.length l index with h | ⟨hcase, hlt⟩
        · exact absurd h hne
        · obtain ⟨hF1, hF2, _, _⟩ := largestAfterRight_spec hA hT hNT hguard hne
          have hidx : index < l.length := by omega
          have hswap_len :
              (listSwap l index (largestAfterRight cmp l.length l index)).length
                = l.length := length_listSwap _ _ _
          have hinv' := pdInv_swap hA hT hNT hidx hcase hlt hF1 hF2 hinv
          have hgoal := ih (listSwap l index (largestAfterRight cmp l.length l index))
            (largestAfterRight cmp l.length l index)
            (by rw [hswap_len]; omega) hinv'
          rw [hswap_len] at hgoal
          exact hgoal
    · rename_i hguard
      intro j hj0 hjl
      have hjl' : j < l.length := hjl
      exact hinv.1 j hj0 hjl' (by omega)

theorem percolate_down_heapOrdered {α : Type} [Inhabited α] {cmp : α → α → Bool}
    (hA : CmpAsymm cmp) (hT : CmpTrans cmp) (hNT : CmpNegTrans cmp)
    {l : List α} {index : Nat} (hinv : pdInv cmp l index) :
    heapOrdered cmp (percolate_down cmp l index) :=
  percolate_down_go_heapOrdered hA hT hNT l.length l index (by omega) hinv

/-! ### Establishing the loop invariants at the call sites -/

/-- `push` appends and sifts up from the appended slot: the appended state
satisfies the sift-up invariant at the last index. -/
theorem puInv_append {α : Type} [Inhabited α] {cmp : α → α → Bool} {l : List α}
    (hl : heapOrdered cmp l) (x : α) : puInv cmp (l ++ [x]) l.length := by
  constructor
  · intro j hj0 hjl hjn
    have hjl' : j < l.length := by
      simp only [List.length_append, List.length_singleton] at hjl
      omega
    rw [nthD_append_left l [x] hjl', nthD_append_left l [x] (by omega)]
    exact hl j hj0 hjl'
  · intro _ j _ hjl hpj
    exfalso
    simp only [List.length_append, List.length_singleton] at hjl
    omega

/-- `pop` overwrites the root with the last element and drops the last slot:
the resulting state satisfies the sift-down invariant at the root. -/
theorem pdInv_popSwap {α : Type} [Inhabited α] {cmp : α → α → Bool} {l : List α}
    (hl : heapOrdered cmp l) (hlen : 1 < l.length) :
    pdInv cmp ((l.set 0 (nthD l (l.length - 1))).dropLast) 0 := by
  constructor
  · intro j hj0 hjl hpj
    have hj' : j < l.length - 1 := by
      simpa using hjl
    have e1 : nthD ((l.set 0 (nthD l (l.length - 1))).dropLast) j = nthD l j := by
      rw [nthD_dropLast _ (by simp only [List.length_set]; omega),
          nthD_set_ne _ _ (by omega)]
    have e2 : nthD ((l.set 0 (nthD l (l.length - 1))).dropLast) ((j - 1) / 2)
        = nthD l ((j - 1) / 2) := by
      rw [nthD_dropLast _ (by simp only [List.length_set]; omega),
          nthD_set_ne _ _ (by omega)]
    rw [e1, e2]
    exact hl j hj0 (by omega)
  · intro h0
    exact absurd h0 (lt_irrefl 0)

/-! ### Facts about the embedded queue operations -/

theorem empty_iff_size {α : Type} (q : ThreadedPriorityQueue α) :
    q.empty = true ↔ q.size = 0 := by
  unfold ThreadedPriorityQueue.empty HeapVec.empty ThreadedPriorityQueue.size
    HeapVec.m_size
  cases q.m_heapVector.m_arr <;> simp

theorem empty_eq_false_of_size {α : Type} {q : ThreadedPriorityQueue α}
    (h : 0 < q.size) : q.empty = false := by
  cases hc : q.empty
  · rfl
  · rw [empty_iff_size q] at hc
    omega

theorem empty_eq_false_iff {α : Type} (q : ThreadedPriorityQueue α) :
    q.empty = false ↔ q.m_heapVector.m_arr ≠ [] := by
  unfold ThreadedPriorityQueue.empty HeapVec.empty
  cases q.m_heapVector.m_arr <;> simp

theorem push_arr {α : Type} [Inhabited α] (cmp : α → α → Bool)
    (q : ThreadedPriorityQueue α) (item : α) :
    (q.push cmp item).m_heapVector.m_arr
      = percolate_up cmp (q.m_heapVector.m_arr ++ [item])
          q.m_heapVector.m_arr.length := by
  show percolate_up cmp (q.m_heapVector.push_back item).m_arr
      ((q.m_heapVector.push_back item).m_size - 1) = _
  unfold HeapVec.m_size
  rw [push_back_arr]
  simp

theorem push_m_isDone {α : Type} [Inhabited α] (cmp : α → α → Bool)
    (q : ThreadedPriorityQueue α) (item : α) :
    (q.push cmp item).m_isDone = q.m_isDone := rfl

theorem push_size {α : Type} [Inhabited α] (cmp : α → α → Bool)
    (q : ThreadedPriorityQueue α) (item : α) :
    (q.push cmp item).size = q.size + 1 := by
  unfold ThreadedPriorityQueue.size HeapVec.m_size
  rw [push_arr, percolate_up_length]
  simp

theorem push_heapOrdered {α : Type} [Inhabited α] {cmp : α → α → Bool}
    (hA : CmpAsymm cmp) (hT : CmpTrans cmp) (hNT : CmpNegTrans cmp)
    {q : ThreadedPriorityQueue α} (h : heapOrdered cmp q.m_heapVector.m_arr)
    (item : α) : heapOrdered cmp (q.push cmp item).m_heapVector.m_arr := by
  rw [push_arr]
  exact percolate_up_heapOrdered hA hT hNT (by simp) (puInv_append h item)

theorem push_perm {α : Type} [Inhabited α] [DecidableEq α] (cmp : α → α → Bool)
    (q : ThreadedPriorityQueue α) (item : α) :
    (q.push cmp item).m_heapVector.m_arr.Perm (q.m_heapVector.m_arr ++ [item]) := by
  rw [push_arr]
  exact percolate_up_perm cmp (by simp)

theorem length_popArr {α : Type} [Inhabited α] (cmp : α → α → Bool) (l : List α) :
    (popArr cmp l).length = l.length - 1 := by
  unfold popArr
  split
  · rw [percolate_down_length]
    simp
  · simp

theorem heapOrdered_popArr {α : Type} [Inhabited α] {cmp : α → α → Bool}
    (hA : CmpAsymm cmp) (hT : CmpTrans cmp) (hNT : CmpNegTrans cmp)
    {l : List α} (h : heapOrdered cmp l) : heapOrdered cmp (popArr cmp l) := by
  unfold popArr
  split
  · rename_i hlen
    exact percolate_down_heapOrdered hA hT hNT (pdInv_popSwap h hlen)
  · rename_i hlen
    exact heapOrdered_of_short cmp (by simp; omega)

theorem popArr_perm {α : Type} [Inhabited α] [DecidableEq α] (cmp : α → α → Bool)
    {l : List α} (h : l ≠ []) : (nthD l 0 :: popArr cmp l).Perm l := by
  unfold popArr
  split
  · rename_i hlen
    refine List.Perm.trans
      (List.Perm.cons _ (percolate_down_perm cmp ((l.set 0 (nthD l (l.length - 1))).dropLast) 0)) ?_
    rw [List.perm_iff_count]
    intro c
    have hlset : l.set 0 (nthD l (l.length - 1)) ≠ [] := by
      intro hc
      have hlen0 := congrArg List.length hc
      simp only [List.length_set, List.length_nil] at hlen0
      omega
    have hgetLast : (l.set 0 (nthD l (l.length - 1))).getLast hlset
        = nthD l (l.length - 1) := by
      rw [List.getLast_eq_getElem]
      simp only [List.length_set]
      rw [List.getElem_set_ne (show (0 : Nat) ≠ l.length - 1 by omega)]
      exact (nthD_eq_getElem l _ (by omega)).symm
    have hsplit : (l.set 0 (nthD l (l.length - 1))).dropLast
        ++ [nthD l (l.length - 1)] = l.set 0 (nthD l (l.length - 1)) := by
      conv_rhs => rw [← List.dropLast_append_getLast hlset]
      rw [hgetLast]
    have h1 : List.count c (l.set 0 (nthD l (l.length - 1)))
        = List.count c ((l.set 0 (nthD l (l.length - 1))).dropLast)
          + (if ((nthD l (l.length - 1)) == c) = true then 1 else 0) := by
      rw [← hsplit, List.count_append]
      simp [List.count_cons]
    have h2 : List.count c (l.set 0 (nthD l (l.length - 1)))
        = List.count c l - (if (l[0] == c) = true then 1 else 0)
          + (if ((nthD l (l.length - 1)) == c) = true then 1 else 0) := by
      have := List.count_set (nthD l (l.length - 1)) c l 0 (by omega)
      rw [this]
    have hcount0 : (if (l[0] == c) = true then 1 else 0) ≤ List.count c l := by
      by_cases hb : (l[0] == c) = true
      · rw [if_pos hb]
        have hbeq : l[0] = c := by simpa using hb
        exact List.count_pos_iff.2 (hbeq ▸ List.getElem_mem (by omega))
      · rw [if_neg hb]
        omega
    rw [List.count_cons, nthD_eq_getElem l 0 (by omega)]
    by_cases hc1 : (l[0] == c) = true <;>
      by_cases hc2 : ((nthD l (l.length - 1)) == c) = true <;>
      simp only [hc1, hc2, if_true, if_false, reduceIte] at h1 h2 hcount0 ⊢ <;>
      omega
  · rename_i hlen
    have h1 : l.length = 1 := by
      have := List.length_pos.2 h
      omega
    obtain ⟨a, ha⟩ := List.length_eq_one.1 h1
    subst ha
    simp [nthD]

theorem heapOrdered_root_mem {α : Type} [Inhabited α] {cmp : α → α → Bool}
    (hA : CmpAsymm cmp) (hNT : CmpNegTrans cmp) {l : List α}
    (hl : heapOrdered cmp l) {x : α} (hx : x ∈ l) :
    cmp x (nthD l 0) = false := by
  obtain ⟨j, hj, he⟩ := List.mem_iff_getElem.1 hx
  rw [← he, ← nthD_eq_getElem l j hj]
  exact heapOrdered_root hA hNT hl j hj

theorem pop_empty {α : Type} [Inhabited α] (cmp : α → α → Bool)
    (q : ThreadedPriorityQueue α) (h : q.empty = true) :
    q.pop cmp = (Except.error QueueError.emptyQueueError, q, false) := by
  unfold ThreadedPriorityQueue.pop
  rw [if_pos (show q.m_heapVector.empty = true from h)]

theorem pop_nonempty {α : Type} [Inhabited α] (cmp : α → α → Bool)
    (q : ThreadedPriorityQueue α) (h : q.empty = false) :
    q.pop cmp = (Except.ok (nthD q.m_heapVector.m_arr 0),
      { m_heapVector := { m_arr := popArr cmp q.m_heapVector.m_arr,
                          m_capacity := q.m_heapVector.m_capacity },
        m_isDone := q.m_isDone },
      (popArr cmp q.m_heapVector.m_arr).isEmpty) := by
  unfold ThreadedPriorityQueue.pop
  rw [if_neg (by simp [show q.m_heapVector.empty = false from h])]
  rfl

theorem pop_size {α : Type} [Inhabited α] (cmp : α → α → Bool)
    (q : ThreadedPriorityQueue α) (h : q.empty = false) :
    (q.pop cmp).2.1.size = q.size - 1 := by
  rw [pop_nonempty cmp q h]
  show (popArr cmp q.m_heapVector.m_arr).length = q.m_heapVector.m_arr.length - 1
  exact length_popArr cmp _

theorem popList_succ {α : Type} [Inhabited α] (cmp : α → α → Bool)
    (q : ThreadedPriorityQueue α) (n : Nat) (h : q.empty = false) :
    q.popList cmp (n + 1) = nthD q.m_heapVector.m_arr 0 ::
      ThreadedPriorityQueue.popList cmp
        { m_heapVector := { m_arr := popArr cmp q.m_heapVector.m_arr,
                            m_capacity := q.m_heapVector.m_capacity },
          m_isDone := q.m_isDone } n := by
  show (match q.pop cmp with
        | (Except.ok t, q', _) => t :: ThreadedPriorityQueue.popList cmp q' n
        | (Except.error _, _, _) => []) = _
  rw [pop_nonempty cmp q h]

theorem popList_sorted {α : Type} [Inhabited α] [DecidableEq α]
    {cmp : α → α → Bool}
    (hA : CmpAsymm cmp) (hT : CmpTrans cmp) (hNT : CmpNegTrans cmp) :
    ∀ (n : Nat) (q : ThreadedPriorityQueue α),
      heapOrdered cmp q.m_heapVector.m_arr → q.m_heapVector.m_arr.length = n →
      (q.popList cmp n).Perm q.m_heapVector.m_arr ∧
      (q.popList cmp n).Pairwise (fun a b => cmp b a = false) := by
  intro n
  induction n with
  | zero =>
    intro q _ hlen
    have harr : q.m_heapVector.m_arr = [] := List.length_eq_zero.1 hlen
    constructor
    · rw [harr]
      exact List.Perm.refl _
    · exact List.Pairwise.nil
  | succ n ih =>
    intro q hord hlen
    have hne : q.m_heapVector.m_arr ≠ [] := by
      intro hc
      rw [hc] at hlen
      simp at hlen
    have hempty : q.empty = false := (empty_eq_false_iff q).2 hne
    rw [popList_succ cmp q n hempty]
    have hord' : heapOrdered cmp (popArr cmp q.m_heapVector.m_arr) :=
      heapOrdered_popArr hA hT hNT hord
    have hlen' : (popArr cmp q.m_heapVector.m_arr).length = n := by
      rw [length_popArr]
      omega
    obtain ⟨ihperm, ihpair⟩ := ih
      { m_heapVector := { m_arr := popArr cmp q.m_heapVector.m_arr,
                          m_capacity := q.m_heapVector.m_capacity },
        m_isDone := q.m_isDone } hord' hlen'
    have hpopperm := popArr_perm cmp (l := q.m_heapVector.m_arr) hne
    constructor
    · exact List.Perm.trans (List.Perm.cons _ ihperm) hpopperm
    · rw [List.pairwise_cons]
      refine ⟨?_, ihpair⟩
      intro b hb
      have hb1 : b ∈ popArr cmp q.m_heapVector.m_arr := ihperm.mem_iff.1 hb
      have hb2 : b ∈ q.m_heapVector.m_arr :=
        hpopperm.mem_iff.1 (List.mem_cons_of_mem _ hb1)
      exact heapOrdered_root_mem hA hNT hord hb2

/-! ### Facts about sequences of operations -/

theorem pushAll_heapOrdered {α : Type} [Inhabited α] {cmp : α → α → Bool}
    (hA : CmpAsymm cmp) (hT : CmpTrans cmp) (hNT : CmpNegTrans cmp) :
    ∀ (vs : List α) (q : ThreadedPriorityQueue α),
      heapOrdered cmp q.m_heapVector.m_arr →
      heapOrdered cmp (q.pushAll cmp vs).m_heapVector.m_arr := by
  intro vs
  induction vs with
  | nil => intro q h; exact h
  | cons v vs ih =>
    intro q h
    exact ih (q.push cmp v) (push_heapOrdered hA hT hNT h v)

theorem pushAll_perm {α : Type} [Inhabited α] [DecidableEq α]
    (cmp : α → α → Bool) :
    ∀ (vs : List α) (q : ThreadedPriorityQueue α),
      (q.pushAll cmp vs).m_heapVector.m_arr.Perm (q.m_heapVector.m_arr ++ vs) := by
  intro vs
  induction vs with
  | nil =>
    intro q
    show q.m_heapVector.m_arr.Perm (q.m_heapVector.m_arr ++ [])
    simp
  | cons v vs ih =>
    intro q
    refine List.Perm.trans (ih (q.push cmp v)) ?_
    have hp := List.Perm.append_right vs (push_perm cmp q v)
    rw [List.append_assoc] at hp
    exact hp

theorem pushAll_size {α : Type} [Inhabited α] (cmp : α → α → Bool) :
    ∀ (vs : List α) (q : ThreadedPriorityQueue α),
      (q.pushAll cmp vs).size = q.size + vs.length := by
  intro vs
  induction vs with
  | nil => intro q; rfl
  | cons v vs ih =>
    intro q
    show (ThreadedPriorityQueue.pushAll cmp (q.push cmp v) vs).size
      = q.size + (v :: vs).length
    rw [ih (q.push cmp v), push_size]
    simp only [List.length_cons]
    omega

theorem popN_size {α : Type} [Inhabited α] (cmp : α → α → Bool) :
    ∀ (J : Nat) (q : ThreadedPriorityQueue α), J ≤ q.size →
      (ThreadedPriorityQueue.popN cmp J q).size = q.size - J := by
  intro J
  induction J with
  | zero => intro q _; rfl
  | succ J ih =>
    intro q hJ
    have hempty : q.empty = false := empty_eq_false_of_size (by omega)
    show (ThreadedPriorityQueue.popN cmp J (q.pop cmp).2.1).size = q.size - (J + 1)
    rw [ih _ (by rw [pop_size cmp q hempty]; omega), pop_size cmp q hempty]
    omega

theorem runOp_heapOrdered {α : Type} [Inhabited α] {cmp : α → α → Bool}
    (hA : CmpAsymm cmp) (hT : CmpTrans cmp) (hNT : CmpNegTrans cmp)
    {q : ThreadedPriorityQueue α} (h : heapOrdered cmp q.m_heapVector.m_arr)
    (op : HeapOp α) : heapOrdered cmp (runOp cmp q op).m_heapVector.m_arr := by
  cases op with
  | pushOp item => exact push_heapOrdered hA hT hNT h item
  | popOp =>
    show heapOrdered cmp (q.pop cmp).2.1.m_heapVector.m_arr
    cases hq : q.empty
    · rw [pop_nonempty cmp q hq]
      exact heapOrdered_popArr hA hT hNT h
    · rw [pop_empty cmp q hq]
      exact h

theorem run_heapOrdered {α : Type} [Inhabited α] {cmp : α → α → Bool}
    (hA : CmpAsymm cmp) (hT : CmpTrans cmp) (hNT : CmpNegTrans cmp) :
    ∀ (ops : List (HeapOp α)) (q : ThreadedPriorityQueue α),
      heapOrdered cmp q.m_heapVector.m_arr →
      heapOrdered cmp (run cmp q ops).m_heapVector.m_arr := by
  intro ops
  induction ops with
  | nil => intro q h; exact h
  | cons op ops ih =>
    intro q h
    exact ih (runOp cmp q op) (runOp_heapOrdered hA hT hNT h op)

theorem runQueueOp_isDone {α : Type} [Inhabited α] (cmp : α → α → Bool)
    (q : ThreadedPriorityQueue α) (op : QueueOp α) (h : q.m_isDone = true) :
    (runQueueOp cmp q op).m_isDone = true := by
  cases op with
  | pushOp item => exact h
  | popOp =>
    show (q.pop cmp).2.1.m_isDone = true
    unfold ThreadedPriorityQueue.pop
    split
    · exact h
    · exact h
  | topOp =>
    show (q.top).2.m_isDone = true
    unfold ThreadedPriorityQueue.top
    split
    · exact h
    · exact h
  | sizeOp => exact h
  | emptyOp => exact h
  | waitEmptyPushOp item =>
    show (q.wait_empty_push cmp item).m_isDone = true
    unfold ThreadedPriorityQueue.wait_empty_push
    split
    · exact h
    · exact h
  | waitNonemptyPopOp =>
    show (q.wait_nonempty_pop cmp).2.1.m_isDone = true
    unfold ThreadedPriorityQueue.wait_nonempty_pop
    split
    · exact h
    · exact h
  | waitAndGetTopOp => exact h
  | doneOp => rfl
  | isDoneOp => exact h

theorem runQueue_isDone {α : Type} [Inhabited α] (cmp : α → α → Bool) :
    ∀ (ops : List (QueueOp α)) (q : ThreadedPriorityQueue α),
      q.m_isDone = true → (runQueue cmp q ops).m_isDone = true := by
  intro ops
  induction ops with
  | nil => intro q h; exact h
  | cons op ops ih =>
    intro q h
    exact ih (runQueueOp cmp q op) (runQueueOp_isDone cmp q op h)

/-! ### Facts about the blocking variants and `top` -/

theorem top_of_empty {α : Type} [Inhabited α] (q : ThreadedPriorityQueue α)
    (h : q.empty = true) :
    q.top = (Except.error QueueError.emptyQueueError, q) := by
  unfold ThreadedPriorityQueue.top
  rw [if_pos (show q.m_heapVector.empty = true from h)]

theorem top_of_nonempty {α : Type} [Inhabited α] (q : ThreadedPriorityQueue α)
    (h : q.empty = false) :
    q.top = (Except.ok (nthD q.m_heapVector.m_arr 0), q) := by
  unfold ThreadedPriorityQueue.top
  rw [if_neg (by simp [show q.m_heapVector.empty = false from h])]
  rfl

theorem wait_empty_push_done {α : Type} [Inhabited α] (cmp : α → α → Bool)
    (q : ThreadedPriorityQueue α) (item : α) (h : q.m_isDone = true) :
    q.wait_empty_push cmp item = q := by
  unfold ThreadedPriorityQueue.wait_empty_push
  rw [if_pos h]

theorem wait_empty_push_not_done {α : Type} [Inhabited α] (cmp : α → α → Bool)
    (q : ThreadedPriorityQueue α) (item : α) (h : q.m_isDone = false) :
    q.wait_empty_push cmp item = q.push cmp item := by
  unfold ThreadedPriorityQueue.wait_empty_push
  rw [if_neg (by simp [h])]
  rfl

theorem wait_nonempty_pop_empty {α : Type} [Inhabited α] (cmp : α → α → Bool)
    (q : ThreadedPriorityQueue α) (h : q.empty = true) :
    q.wait_nonempty_pop cmp = (none, q, false) := by
  unfold ThreadedPriorityQueue.wait_nonempty_pop
  rw [if_pos (show q.m_heapVector.empty = true from h)]

theorem wait_nonempty_pop_nonempty {α : Type} [Inhabited α] (cmp : α → α → Bool)
    (q : ThreadedPriorityQueue α) (h : q.empty = false) :
    q.wait_nonempty_pop cmp = (some (nthD q.m_heapVector.m_arr 0),
      { m_heapVector := { m_arr := popArr cmp q.m_heapVector.m_arr,
                          m_capacity := q.m_heapVector.m_capacity },
        m_isDone := q.m_isDone },
      (popArr cmp q.m_heapVector.m_arr).isEmpty) := by
  unfold ThreadedPriorityQueue.wait_nonempty_pop
  rw [if_neg (by simp [show q.m_heapVector.empty = false from h])]
  rfl

theorem wait_and_get_top_empty {α : Type} [Inhabited α]
    (q : ThreadedPriorityQueue α) (h : q.empty = true) :
    q.wait_and_get_top = none := by
  unfold ThreadedPriorityQueue.wait_and_get_top
  rw [if_pos (show q.m_heapVector.empty = true from h)]

theorem wait_and_get_top_nonempty {α : Type} [Inhabited α]
    (q : ThreadedPriorityQueue α) (h : q.empty = false) :
    q.wait_and_get_top = some (nthD q.m_heapVector.m_arr 0) := by
  unfold ThreadedPriorityQueue.wait_and_get_top
  rw [if_neg (by simp [show q.m_heapVector.empty = false from h])]
  rfl

/-! ### `percolate_down` follows the spec's description of `sift_down` -/

theorem percolate_down_go_eq_spec {α : Type} [Inhabited α] {cmp : α → α → Bool}
    (hA : CmpAsymm cmp) (hT : CmpTrans cmp) (hNT : CmpNegTrans cmp) :
    ∀ (fuel n : Nat) (l : List α) (i : Nat),
      percolate_down_go cmp n l i fuel = sift_down_spec_go cmp n l i fuel := by
  intro fuel
  induction fuel with
  | zero => intro n l i; rfl
  | succ fuel ih =>
    intro n l i
    unfold percolate_down_go sift_down_spec_go
    split
    · rename_i hguard
      by_cases hm : largestAfterRight cmp n l i = i
      · rw [if_pos hm]
        obtain ⟨hL, hR⟩ := largestAfterRight_eq_self hguard hm
        rw [if_neg ?_]
        unfold specCand
        split
        · rename_i h2
          rw [hR h2.1]
          simp
        · rw [hL]
          simp
      · rw [if_neg hm]
        obtain ⟨hF1, _, hG1, hG2⟩ := largestAfterRight_spec hA hT hNT hguard hm
        rcases largestAfterRight_cases cmp n l i with hcontra | ⟨hcase, hlt⟩
        · exact absurd hcontra hm
        · have hcand : specCand cmp n l i = largestAfterRight cmp n l i := by
            unfold specCand
            rcases hcase with h1 | h1
            · rw [if_neg (hG2 h1)]
              exact h1.symm
            · rw [if_pos ⟨h1 ▸ hlt, hG1 h1⟩]
              exact h1.symm
          rw [hcand, if_pos hF1]
          exact ih n (listSwap l i (largestAfterRight cmp n l i))
            (largestAfterRight cmp n l i)
    · rfl

/-! ### Miscellaneous list facts used by the pop description -/

theorem dropLast_set_last {α : Type} (l : List α) (a : α) {m : Nat}
    (hm : m = l.length - 1) : (l.set m a).dropLast = l.dropLast := by
  apply List.ext_getElem
  · simp
  · intro i h1 h2
    rw [List.getElem_dropLast, List.getElem_dropLast, List.getElem_set_ne]
    simp only [List.length_set, List.length_dropLast] at h1
    omega

theorem listSwap_zero_last {α : Type} [Inhabited α] (l : List α) :
    (listSwap l 0 (l.length - 1)).dropLast
      = (l.set 0 (nthD l (l.length - 1))).dropLast := by
  unfold listSwap
  exact dropLast_set_last _ _ (by simp)

/-! ### The claims -/

open ThreadedPriorityQueue

/-- C1: pushing any finite list of distinct values into a fresh queue and
popping size-many times returns the values in fully sorted order — strictly
ascending for the min-heap comparator, strictly descending for the max-heap
comparator — and the popped list is a permutation of the pushed values; in
particular pushing 5,3,8,1 into a min-heap `Int` queue pops 1, 3, 5, 8, and
`size()` is 4,3,2,1,0 after 0,1,2,3,4 successive pops. -/
theorem c1_extract_order_correctness :
    (∀ (α : Type) [LinearOrder α] [Inhabited α] (vs : List α), vs.Nodup →
      (((fresh α).pushAll MinHeapComparitor vs).popList MinHeapComparitor
          vs.length).Perm vs ∧
      List.Sorted (· < ·) (((fresh α).pushAll MinHeapComparitor vs).popList
          MinHeapComparitor vs.length)) ∧
    (∀ (α : Type) [LinearOrder α] [Inhabited α] (vs : List α), vs.Nodup →
      (((fresh α).pushAll MaxHeapComparitor vs).popList MaxHeapComparitor
          vs.length).Perm vs ∧
      List.Sorted (· > ·) (((fresh α).pushAll MaxHeapComparitor vs).popList
          MaxHeapComparitor vs.length)) ∧
    (((fresh Int).pushAll MinHeapComparitor [5, 3, 8, 1]).popList
        MinHeapComparitor 4 = [1, 3, 5, 8] ∧
      ((fresh Int).pushAll MinHeapComparitor [5, 3, 8, 1]).size = 4 ∧
      (popN MinHeapComparitor 1 ((fresh Int).pushAll MinHeapComparitor
        [5, 3, 8, 1])).size = 3 ∧
      (popN MinHeapComparitor 2 ((fresh Int).pushAll MinHeapComparitor
        [5, 3, 8, 1])).size = 2 ∧
      (popN MinHeapComparitor 3 ((fresh Int).pushAll MinHeapComparitor
        [5, 3, 8, 1])).size = 1 ∧
      (popN MinHeapComparitor 4 ((fresh Int).pushAll MinHeapComparitor
        [5, 3, 8, 1])).size = 0) := by
  refine ⟨?_, ?_, ?_⟩
  · intro α _ _ vs hnodup
    obtain ⟨hA, hT, hNT⟩ := strictCmp_min (α := α)
    have hord : heapOrdered MinHeapComparitor
        ((fresh α).pushAll MinHeapComparitor vs).m_heapVector.m_arr :=
      pushAll_heapOrdered hA hT hNT vs (fresh α)
        (heapOrdered_of_short _ (by simp [ThreadedPriorityQueue.fresh]))
    have hperm0 : ((fresh α).pushAll MinHeapComparitor
        vs).m_heapVector.m_arr.Perm vs := by
      have h := pushAll_perm MinHeapComparitor vs (fresh α)
      exact h
    have hlen := hperm0.length_eq
    obtain ⟨hp, hs⟩ := popList_sorted hA hT hNT vs.length _ hord hlen
    have hperm : (((fresh α).pushAll MinHeapComparitor vs).popList
        MinHeapComparitor vs.length).Perm vs := hp.trans hperm0
    refine ⟨hperm, ?_⟩
    have hnodup' := hperm.symm.nodup hnodup
    have hle : (((fresh α).pushAll MinHeapComparitor vs).popList
        MinHeapComparitor vs.length).Pairwise (· ≤ ·) := by
      refine hs.imp ?_
      intro a b h
      simp only [MinHeapComparitor, decide_eq_false_iff_not] at h
      exact not_lt.1 h
    exact (hle.and hnodup').imp (fun h => lt_of_le_of_ne h.1 h.2)
  · intro α _ _ vs hnodup
    obtain ⟨hA, hT, hNT⟩ := strictCmp_max (α := α)
    have hord : heapOrdered MaxHeapComparitor
        ((fresh α).pushAll MaxHeapComparitor vs).m_heapVector.m_arr :=
      pushAll_heapOrdered hA hT hNT vs (fresh α)
        (heapOrdered_of_short _ (by simp [ThreadedPriorityQueue.fresh]))
    have hperm0 : ((fresh α).pushAll MaxHeapComparitor
        vs).m_heapVector.m_arr.Perm vs := by
      have h := pushAll_perm MaxHeapComparitor vs (fresh α)
      exact h
    have hlen := hperm0.length_eq
    obtain ⟨hp, hs⟩ := popList_sorted hA hT hNT vs.length _ hord hlen
    have hperm : (((fresh α).pushAll MaxHeapComparitor vs).popList
        MaxHeapComparitor vs.length).Perm vs := hp.trans hperm0
    refine ⟨hperm, ?_⟩
    have hnodup' := hperm.symm.nodup hnodup
    have hge : (((fresh α).pushAll MaxHeapComparitor vs).popList
        MaxHeapComparitor vs.length).Pairwise (fun a b => b ≤ a) := by
      refine hs.imp ?_
      intro a b h
      simp only [MaxHeapComparitor, gt_iff_lt, decide_eq_false_iff_not] at h
      exact not_lt.1 h
    exact (hge.and hnodup').imp (fun h => lt_of_le_of_ne h.1 (Ne.symm h.2))
  · exact ⟨by decide, by decide, by decide, by decide, by decide, by decide⟩

/-- Witness for C1 at the concrete input 5,3,8,1 over `Int`. -/
theorem c1_extract_order_correctness_witness :
    ([5, 3, 8, 1] : List Int).Nodup ∧
    (((fresh Int).pushAll MinHeapComparitor [5, 3, 8, 1]).popList
        MinHeapComparitor ([5, 3, 8, 1] : List Int).length).Perm [5, 3, 8, 1] ∧
    List.Sorted (· < ·) (((fresh Int).pushAll MinHeapComparitor
        [5, 3, 8, 1]).popList MinHeapComparitor ([5, 3, 8, 1] : List Int).length) ∧
    List.Sorted (· > ·) (((fresh Int).pushAll MaxHeapComparitor
        [5, 3, 8, 1]).popList MaxHeapComparitor ([5, 3, 8, 1] : List Int).length) :=
  ⟨by decide,
   (c1_extract_order_correctness.1 Int [5, 3, 8, 1] (by decide)).1,
   (c1_extract_order_correctness.1 Int [5, 3, 8, 1] (by decide)).2,
   (c1_extract_order_correctness.2.1 Int [5, 3, 8, 1] (by decide)).2⟩

/-- C2: after any single-threaded sequence of `push`/`pop` operations starting
from a fresh queue, the heap property holds: for every index `i` whose child
index `2i+1` (resp. `2i+2`) is below the current length,
`Order(heap[2i+1], heap[i])` is false and `Order(heap[2i+2], heap[i])` is
false. -/
theorem c2_heap_invariant :
    ∀ (α : Type) [Inhabited α] (cmp : α → α → Bool), StrictCmp cmp →
      ∀ (ops : List (HeapOp α)),
        heapProp cmp (run cmp (fresh α) ops).m_heapVector.m_arr := by
  intro α _ cmp hs ops
  obtain ⟨hA, hT, hNT⟩ := hs
  rw [heapProp_iff_heapOrdered]
  exact run_heapOrdered hA hT hNT ops _
    (heapOrdered_of_short cmp (by simp [ThreadedPriorityQueue.fresh]))

/-- Witness for C2 on a concrete push/pop sequence over `Int`. -/
theorem c2_heap_invariant_witness :
    StrictCmp (MinHeapComparitor (α := Int)) ∧
    heapProp MinHeapComparitor (run MinHeapComparitor (fresh Int)
      [HeapOp.pushOp 3, HeapOp.pushOp 1, HeapOp.popOp, HeapOp.pushOp 2,
        HeapOp.pushOp 7, HeapOp.popOp]).m_heapVector.m_arr :=
  ⟨strictCmp_min, c2_heap_invariant Int MinHeapComparitor strictCmp_min _⟩

/-- C3 (value-level behaviour of `top()`; the claim's copy/no-aliasing part is
settled against the C++ signature in the results): on an empty queue `top()`
fails with `EmptyQueueError` and the queue is unchanged; on a non-empty queue
it produces the root value and performs no mutation. -/
theorem c3_top_behaviour :
    ∀ (α : Type) [Inhabited α] (q : ThreadedPriorityQueue α),
      (q.empty = true → q.top = (Except.error QueueError.emptyQueueError, q)) ∧
      (q.empty = false → q.top = (Except.ok (nthD q.m_heapVector.m_arr 0), q)) := by
  intro α _ q
  exact ⟨top_of_empty q, top_of_nonempty q⟩

/-- Witness for C3 on an empty and a one-element `Int` queue. -/
theorem c3_top_behaviour_witness :
    (fresh Int).empty = true ∧
    (fresh Int).top = (Except.error QueueError.emptyQueueError, fresh Int) ∧
    ((fresh Int).push MinHeapComparitor 1).empty = false ∧
    ((fresh Int).push MinHeapComparitor 1).top
      = (Except.ok (nthD ((fresh Int).push MinHeapComparitor
          1).m_heapVector.m_arr 0), (fresh Int).push MinHeapComparitor 1) :=
  ⟨rfl, (c3_top_behaviour Int (fresh Int)).1 rfl, rfl,
    (c3_top_behaviour Int ((fresh Int).push MinHeapComparitor 1)).2 rfl⟩

/-- C4: `pop()` on an empty queue fails with `EmptyQueueError` (no state change,
no notification); on a non-empty queue it returns the previous root — which is
the extremal element under `Order` whenever the heap property holds — and the
new storage is the old one with the root swapped with the last element, the
last slot dropped, then a sift-down from index 0 if still non-empty (else just
the shrink); the `notify_one` that wakes a `wait_empty_push` waiter fires iff
the queue became empty. -/
theorem c4_pop_contract :
    ∀ (α : Type) [Inhabited α] (cmp : α → α → Bool) (q : ThreadedPriorityQueue α),
      (q.empty = true →
        q.pop cmp = (Except.error QueueError.emptyQueueError, q, false)) ∧
      (q.empty = false →
        (q.pop cmp).1 = Except.ok (nthD q.m_heapVector.m_arr 0) ∧
        (q.pop cmp).2.1.m_heapVector.m_arr =
          (if 1 < q.m_heapVector.m_arr.length then
            percolate_down cmp
              ((listSwap q.m_heapVector.m_arr 0
                (q.m_heapVector.m_arr.length - 1)).dropLast) 0
          else q.m_heapVector.m_arr.dropLast) ∧
        (q.pop cmp).2.1.m_heapVector.m_capacity = q.m_heapVector.m_capacity ∧
        (q.pop cmp).2.1.m_isDone = q.m_isDone ∧
        ((q.pop cmp).2.2 = true ↔ (q.pop cmp).2.1.empty = true)) ∧
      (q.empty = false → StrictCmp cmp → heapProp cmp q.m_heapVector.m_arr →
        ∀ x ∈ q.m_heapVector.m_arr, cmp x (nthD q.m_heapVector.m_arr 0) = false) := by
  intro α _ cmp q
  refine ⟨fun h => pop_empty cmp q h, fun h => ?_, fun _ hs hheap => ?_⟩
  · rw [pop_nonempty cmp q h]
    refine ⟨rfl, ?_, rfl, rfl, Iff.rfl⟩
    show popArr cmp q.m_heapVector.m_arr = _
    unfold popArr
    split
    · rw [listSwap_zero_last]
    · rfl
  · obtain ⟨hA, _, hNT⟩ := hs
    rw [heapProp_iff_heapOrdered] at hheap
    intro x hx
    exact heapOrdered_root_mem hA hNT hheap hx

/-- Witness for C4 on a two-element `Int` min-heap queue. -/
theorem c4_pop_contract_witness :
    ((fresh Int).pushAll MinHeapComparitor [2, 1]).empty = false ∧
    StrictCmp (MinHeapComparitor (α := Int)) ∧
    heapProp MinHeapComparitor
      ((fresh Int).pushAll MinHeapComparitor [2, 1]).m_heapVector.m_arr ∧
    (((fresh Int).pushAll MinHeapComparitor [2, 1]).pop MinHeapComparitor).1
      = Except.ok (nthD ((fresh Int).pushAll MinHeapComparitor
          [2, 1]).m_heapVector.m_arr 0) ∧
    (∀ x ∈ ((fresh Int).pushAll MinHeapComparitor [2, 1]).m_heapVector.m_arr,
      MinHeapComparitor x (nthD ((fresh Int).pushAll MinHeapComparitor
        [2, 1]).m_heapVector.m_arr 0) = false) :=
  ⟨by decide, strictCmp_min, by decide,
    ((c4_pop_contract Int MinHeapComparitor
      ((fresh Int).pushAll MinHeapComparitor [2, 1])).2.1 (by decide)).1,
    (c4_pop_contract Int MinHeapComparitor
      ((fresh Int).pushAll MinHeapComparitor [2, 1])).2.2 (by decide)
      strictCmp_min (by decide)⟩

/-- C5: no blocking variant can fail with `EmptyQueueError` (their results are
`Option`s / plain returns, mirroring the absence of any `throw` in their
bodies); shutdown during a wait is resolved by re-checking state after wake:
`wait_nonempty_pop` and `wait_and_get_top` return the no-value result exactly
when the queue is still empty after wake, and `wait_empty_push` woken with
`done` set returns without pushing, discarding the item (otherwise it pushes
exactly as `push`). -/
theorem c5_blocking_shutdown :
    ∀ (α : Type) [Inhabited α] (cmp : α → α → Bool)
      (q : ThreadedPriorityQueue α) (item : α),
      (q.m_isDone = true → q.wait_empty_push cmp item = q) ∧
      (q.m_isDone = false → q.wait_empty_push cmp item = q.push cmp item) ∧
      ((q.wait_nonempty_pop cmp).1 = none ↔ q.empty = true) ∧
      (q.empty = true → q.wait_nonempty_pop cmp = (none, q, false)) ∧
      (q.wait_and_get_top = none ↔ q.empty = true) ∧
      (q.empty = false → q.wait_and_get_top
        = some (nthD q.m_heapVector.m_arr 0)) := by
  intro α _ cmp q item
  refine ⟨wait_empty_push_done cmp q item, wait_empty_push_not_done cmp q item,
    ⟨?_, ?_⟩, wait_nonempty_pop_empty cmp q, ⟨?_, ?_⟩,
    wait_and_get_top_nonempty q⟩
  · intro hn
    cases hq : q.empty
    · rw [wait_nonempty_pop_nonempty cmp q hq] at hn
      simp at hn
    · rfl
  · intro hq
    rw [wait_nonempty_pop_empty cmp q hq]
  · intro hn
    cases hq : q.empty
    · rw [wait_and_get_top_nonempty q hq] at hn
      simp at hn
    · rfl
  · intro hq
    rw [wait_and_get_top_empty q hq]

/-- Witness for C5 on concrete `Int` queues. -/
theorem c5_blocking_shutdown_witness :
    (fresh Int).done.m_isDone = true ∧
    (fresh Int).done.wait_empty_push MinHeapComparitor 7 = (fresh Int).done ∧
    (fresh Int).done.empty = true ∧
    (fresh Int).done.wait_nonempty_pop MinHeapComparitor
      = (none, (fresh Int).done, false) ∧
    ((fresh Int).push MinHeapComparitor 5).m_isDone = false ∧
    ((fresh Int).push MinHeapComparitor 5).wait_empty_push MinHeapComparitor 7
      = ((fresh Int).push MinHeapComparitor 5).push MinHeapComparitor 7 :=
  ⟨rfl,
    (c5_blocking_shutdown Int MinHeapComparitor (fresh Int).done 7).1 rfl,
    rfl,
    (c5_blocking_shutdown Int MinHeapComparitor (fresh Int).done 7).2.2.2.1 rfl,
    rfl,
    (c5_blocking_shutdown Int MinHeapComparitor
      ((fresh Int).push MinHeapComparitor 5) 7).2.1 rfl⟩

/-- C6: starting from a fresh queue, after K pushes followed by J pops with
J ≤ K, `size()` equals K - J; and `empty()` is true iff `size() = 0` for every
queue state. -/
theorem c6_size_roundtrip :
    ∀ (α : Type) [Inhabited α] (cmp : α → α → Bool) (vs : List α) (J : Nat),
      J ≤ vs.length →
      (popN cmp J ((fresh α).pushAll cmp vs)).size = vs.length - J ∧
      ∀ (q : ThreadedPriorityQueue α), q.empty = true ↔ q.size = 0 := by
  intro α _ cmp vs J hJ
  have hsize : ((fresh α).pushAll cmp vs).size = vs.length := by
    rw [pushAll_size]
    show 0 + vs.length = vs.length
    omega
  constructor
  · rw [popN_size cmp J _ (by rw [hsize]; exact hJ), hsize]
  · exact empty_iff_size

/-- Witness for C6 with K = 3 pushes and J = 2 pops over `Int`. -/
theorem c6_size_roundtrip_witness :
    (2 : Nat) ≤ ([4, 9, 6] : List Int).length ∧
    (popN MinHeapComparitor 2 ((fresh Int).pushAll MinHeapComparitor
      [4, 9, 6])).size = ([4, 9, 6] : List Int).length - 2 ∧
    ((fresh Int).empty = true ↔ (fresh Int).size = 0) :=
  ⟨by decide,
    (c6_size_roundtrip Int MinHeapComparitor [4, 9, 6] 2 (by decide)).1,
    (c6_size_roundtrip Int MinHeapComparitor [4, 9, 6] 2 (by decide)).2
      (fresh Int)⟩

/-- C7: for every state, `percolate_down` behaves exactly as the spec's
description of `sift_down(i)`: while `i` has at least one child, among the
existing children the one that most violates the property relative to `i`
under `Order` is selected (left preferred on ties); if that child is better
than `i` the elements are swapped and the loop continues from the child's
index, else it stops. -/
theorem c7_sift_down_description :
    ∀ (α : Type) [Inhabited α] (cmp : α → α → Bool), StrictCmp cmp →
      ∀ (l : List α) (i : Nat), percolate_down cmp l i = sift_down_spec cmp l i := by
  intro α _ cmp hs l i
  obtain ⟨hA, hT, hNT⟩ := hs
  exact percolate_down_go_eq_spec hA hT hNT l.length l.length l i

/-- Witness for C7 on a concrete misplaced-root heap over `Int`. -/
theorem c7_sift_down_description_witness :
    StrictCmp (MinHeapComparitor (α := Int)) ∧
    percolate_down MinHeapComparitor ([9, 1, 4, 2, 3] : List Int) 0
      = sift_down_spec MinHeapComparitor ([9, 1, 4, 2, 3] : List Int) 0 :=
  ⟨strictCmp_min,
    c7_sift_down_description Int MinHeapComparitor strictCmp_min [9, 1, 4, 2, 3] 0⟩

/-- C8: the `done` flag is monotonic — no public operation ever resets it —
and `done()` is idempotent: calling it twice yields the same queue state as
calling it once, and `is_done()` is true after either one or two calls. -/
theorem c8_done_monotone_idempotent :
    ∀ (α : Type) [Inhabited α] (cmp : α → α → Bool)
      (q : ThreadedPriorityQueue α) (ops : List (QueueOp α)),
      (q.m_isDone = true → (runQueue cmp q ops).m_isDone = true) ∧
      q.done.done = q.done ∧
      q.done.is_done = true ∧
      q.done.done.is_done = true := by
  intro α _ cmp q ops
  exact ⟨runQueue_isDone cmp ops q, rfl, rfl, rfl⟩

/-- Witness for C8 on a concrete operation sequence over `Int`. -/
theorem c8_done_monotone_idempotent_witness :
    (fresh Int).done.m_isDone = true ∧
    (runQueue MinHeapComparitor (fresh Int).done
      [QueueOp.pushOp 3, QueueOp.popOp, QueueOp.waitEmptyPushOp 1,
        QueueOp.waitNonemptyPopOp, QueueOp.topOp, QueueOp.doneOp,
        QueueOp.isDoneOp]).m_isDone = true :=
  ⟨rfl,
    (c8_done_monotone_idempotent Int MinHeapComparitor (fresh Int).done
      [QueueOp.pushOp 3, QueueOp.popOp, QueueOp.waitEmptyPushOp 1,
        QueueOp.waitNonemptyPopOp, QueueOp.topOp, QueueOp.doneOp,
        QueueOp.isDoneOp]).1 rfl⟩

/-- C9: when `pop()` or `top()` is called on an empty queue, the error is
raised before any mutation: the stored elements, length, capacity and done
flag are exactly the same after the failed call as before it (and no
notification fires). -/
theorem c9_error_before_mutation :
    ∀ (α : Type) [Inhabited α] (cmp : α → α → Bool) (q : ThreadedPriorityQueue α),
      q.empty = true →
      (q.pop cmp).1 = Except.error QueueError.emptyQueueError ∧
      (q.pop cmp).2.1.m_heapVector.m_arr = q.m_heapVector.m_arr ∧
      (q.pop cmp).2.1.size = q.size ∧
      (q.pop cmp).2.1.m_heapVector.m_capacity = q.m_heapVector.m_capacity ∧
      (q.pop cmp).2.1.m_isDone = q.m_isDone ∧
      (q.pop cmp).2.2 = false ∧
      (q.top).1 = Except.error QueueError.emptyQueueError ∧
      (q.top).2 = q := by
  intro α _ cmp q h
  rw [pop_empty cmp q h, top_of_empty q h]
  exact ⟨rfl, rfl, rfl, rfl, rfl, rfl, rfl, rfl⟩

/-- Witness for C9 on a fresh (empty) `Int` queue. -/
theorem c9_error_before_mutation_witness :
    (fresh Int).empty = true ∧
    ((fresh Int).pop MinHeapComparitor).1
      = Except.error QueueError.emptyQueueError ∧
    ((fresh Int).pop MinHeapComparitor).2.1.m_heapVector.m_arr
      = (fresh Int).m_heapVector.m_arr ∧
    ((fresh Int).top).2 = fresh Int :=
  ⟨rfl,
    (c9_error_before_mutation Int MinHeapComparitor (fresh Int) rfl).1,
    (c9_error_before_mutation Int MinHeapComparitor (fresh Int) rfl).2.1,
    (c9_error_before_mutation Int MinHeapComparitor (fresh Int) rfl).2.2.2.2.2.2.2⟩

/-- C10: setting the done flag does not prevent draining: for every queue
state — in particular with `m_isDone = true` — whose wake predicate finds it
non-empty, `wait_nonempty_pop` removes and returns the extremal element under
`Order` (given the heap property) and `wait_and_get_top` returns a copy of it;
the no-value result occurs exactly when the queue is empty at the re-check. -/
theorem c10_drain_after_done :
    ∀ (α : Type) [Inhabited α] [DecidableEq α] (cmp : α → α → Bool),
      StrictCmp cmp →
      ∀ (q : ThreadedPriorityQueue α), heapProp cmp q.m_heapVector.m_arr →
        (q.empty = false →
          (q.wait_nonempty_pop cmp).1 = some (nthD q.m_heapVector.m_arr 0) ∧
          (∀ x ∈ q.m_heapVector.m_arr,
            cmp x (nthD q.m_heapVector.m_arr 0) = false) ∧
          (nthD q.m_heapVector.m_arr 0 ::
            (q.wait_nonempty_pop cmp).2.1.m_heapVector.m_arr).Perm
            q.m_heapVector.m_arr ∧
          q.wait_and_get_top = some (nthD q.m_heapVector.m_arr 0)) ∧
        ((q.wait_nonempty_pop cmp).1 = none ↔ q.empty = true) := by
  intro α _ _ cmp hs q hheap
  obtain ⟨hA, hT, hNT⟩ := hs
  rw [heapProp_iff_heapOrdered] at hheap
  constructor
  · intro h
    rw [wait_nonempty_pop_nonempty cmp q h]
    refine ⟨rfl, fun x hx => heapOrdered_root_mem hA hNT hheap hx, ?_,
      wait_and_get_top_nonempty q h⟩
    exact popArr_perm cmp ((empty_eq_false_iff q).1 h)
  · constructor
    · intro hn
      cases hq : q.empty
      · rw [wait_nonempty_pop_nonempty cmp q hq] at hn
        simp at hn
      · rfl
    · intro hq
      rw [wait_nonempty_pop_empty cmp q hq]

/-- Witness for C10 on a non-empty `Int` queue whose done flag is set. -/
theorem c10_drain_after_done_witness :
    StrictCmp (MinHeapComparitor (α := Int)) ∧
    heapProp MinHeapComparitor
      (((fresh Int).pushAll MinHeapComparitor [4, 2]).done).m_heapVector.m_arr ∧
    (((fresh Int).pushAll MinHeapComparitor [4, 2]).done).empty = false ∧
    (((fresh Int).pushAll MinHeapComparitor [4, 2]).done).m_isDone = true ∧
    ((((fresh Int).pushAll MinHeapComparitor
        [4, 2]).done).wait_nonempty_pop MinHeapComparitor).1
      = some (nthD (((fresh Int).pushAll MinHeapComparitor
          [4, 2]).done).m_heapVector.m_arr 0) :=
  ⟨strictCmp_min, by decide, by decide, rfl,
    ((c10_drain_after_done Int MinHeapComparitor strictCmp_min
      (((fresh Int).pushAll MinHeapComparitor [4, 2]).done) (by decide)).1
      (by decide)).1⟩
